import Mathlib

/-!
Verification of the Sp3ctra code-review tooling (scripts/code_review/*.py).

The Python sources are shallowly embedded: each relevant function is
translated into an executable Lean definition over `List Char` / `String`,
`Nat`/`Int`, with Python regular-expression pipelines replaced by
equivalent explicit recursions (the specific patterns used by the code are
simple enough to admit direct deterministic implementations).

Embedded components:
* `agent_duplication.normalize_code` / `get_code_hash` (MD5 over UTF-8 of
  the normalized text) / `extract_functions` / the cross-boundary
  duplicate-group classification of `find_duplicate_functions`;
* `agent_metrics.generate_report` quality scoring;
* `run_code_review.run_all_agents` / `generate_consolidated_report` /
  `_generate_recommendations` / `main`;
* `agent_architecture.check_rt_audio_safety`;
* `agent_ai_bias.check_dead_code`.
-/

namespace Sp3ctra

/-! ## Character classes

`isPyWs` embeds Python's `\s` for `str` patterns (ASCII whitespace plus the
unicode whitespace code points recognised by `re`).  `isWordC` embeds `\w`
(restricted to the ASCII range, which is the only range exercised by the
C/C++ sources this tool scans). -/

def isPyWs (c : Char) : Bool :=
  c == ' ' || c == '\t' || c == '\n' || c == '\r' || c == '\x0b' || c == '\x0c' ||
  c == '\x1c' || c == '\x1d' || c == '\x1e' || c == '\x1f' || c == '\x85' ||
  c == '\xa0' || c == ' ' || (' ' ≤ c && c ≤ ' ') ||
  c == ' ' || c == ' ' || c == ' ' || c == ' ' || c == '　'

def isWordC (c : Char) : Bool :=
  ('a' ≤ c && c ≤ 'z') || ('A' ≤ c && c ≤ 'Z') || ('0' ≤ c && c ≤ '9') || c == '_'

/-! ## `normalize_code` (agent_duplication.py lines 31-40)

The Python code applies three `re.sub` passes in order:
1. `re.sub(r'//.*$', '', code, flags=re.MULTILINE)` — on every line, drop
   everything from the first `//` to the end of that line (`.` does not
   match `\n`, `$` matches just before each `\n`);
2. `re.sub(r'/\*.*?\*/', '', code, flags=re.DOTALL)` — repeatedly remove
   the leftmost `/*` paired with the nearest following `*/`; when a `/*`
   has no following `*/`, nothing further matches;
3. `re.sub(r'\s+', ' ', code)` — collapse each maximal whitespace run to a
   single space — followed by `.strip()`.

`rmLine`, `rmBlock`, `collapseWs`, `pyStrip` implement these passes. -/

/-- Pass 1, `re.sub(r'//.*$', '', code, flags=re.MULTILINE)`.  The `Bool`
is the "currently skipping a line comment" state. -/
def rmLine : Bool → List Char → List Char
  | true, [] => []
  | true, c :: rest => if c = '\n' then '\n' :: rmLine false rest else rmLine true rest
  | false, [] => []
  | false, '/' :: '/' :: rest => rmLine true rest
  | false, c :: rest => c :: rmLine false rest

/-- Scan for the first `*/`; return the suffix just after it. -/
def findClose : List Char → Option (List Char)
  | [] => none
  | [_] => none
  | x :: y :: rest => if x = '*' ∧ y = '/' then some rest else findClose (y :: rest)

theorem findClose_length : ∀ {l l' : List Char}, findClose l = some l' →
    l'.length + 2 ≤ l.length := by
  intro l
  induction l using findClose.induct with
  | case1 => intro l' h; simp [findClose] at h
  | case2 => intro l' h; simp [findClose] at h
  | case3 x y rest h =>
    intro l' hcl
    rw [findClose] at hcl
    rw [if_pos h] at hcl
    cases hcl; simp
  | case4 x y rest h ih =>
    intro l' hcl
    rw [findClose, if_neg h] at hcl
    have := ih hcl
    simp at this ⊢
    omega

/-- Pass 2, `re.sub(r'/\*.*?\*/', '', code, flags=re.DOTALL)`, written with
a fuel parameter so that it is structurally recursive (and hence reduces
inside the kernel); `rmBlock` supplies enough fuel, and
`rmBlockF_fuel_irrel` shows the fuel is irrelevant from `l.length` up. -/
def rmBlockF : Nat → List Char → List Char
  | 0, l => l
  | _ + 1, [] => []
  | fuel + 1, '/' :: '*' :: rest =>
    match findClose rest with
    | some rest2 => rmBlockF fuel rest2
    | none => '/' :: '*' :: rest
  | fuel + 1, c :: rest => c :: rmBlockF fuel rest

def rmBlock (l : List Char) : List Char := rmBlockF l.length l

/-- Pass 3 first half, `re.sub(r'\s+', ' ', code)`; the `Bool` records
whether we are inside a whitespace run whose single `' '` was already
emitted. -/
def collapseGo : Bool → List Char → List Char
  | _, [] => []
  | inRun, c :: rest =>
    if isPyWs c then
      if inRun then collapseGo true rest else ' ' :: collapseGo true rest
    else c :: collapseGo false rest

def collapseWs (l : List Char) : List Char := collapseGo false l

/-- Python `str.strip()`: remove leading and trailing whitespace. -/
def pyStrip (l : List Char) : List Char :=
  ((l.dropWhile isPyWs).reverse.dropWhile isPyWs).reverse

/-- `DuplicationDetectorAgent.normalize_code` (agent_duplication.py 31-40). -/
def normalize_code (code : String) : String :=
  ⟨pyStrip (collapseWs (rmBlock (rmLine false code.data)))⟩

example : normalize_code "a /*\n// */ b" = "a /*" := by decide
example : normalize_code "char *s = \"a//b\";" = "char *s = \"a" := by decide
example : normalize_code "  int  x ; // c\n y" = "int x ; y" := by decide
example : normalize_code "a /*c*/ b" = "a b" := by decide

/-! ## `get_code_hash` (agent_duplication.py lines 42-45)

`hashlib.md5(normalized.encode()).hexdigest()`: MD5 of the UTF-8 encoding
of the normalized text, rendered as 32 lowercase hex digits.  MD5 is
implemented below over `Nat` bytes/words (`% 2 ^ 32` where overflow
matters). -/

/-- UTF-8 encoding of one character, as `Nat` byte values. -/
def utf8Char (c : Char) : List Nat :=
  let n := c.toNat
  if n < 0x80 then [n]
  else if n < 0x800 then [0xC0 + n / 64, 0x80 + n % 64]
  else if n < 0x10000 then [0xE0 + n / 4096, 0x80 + n / 64 % 64, 0x80 + n % 64]
  else [0xF0 + n / 262144, 0x80 + n / 4096 % 64, 0x80 + n / 64 % 64, 0x80 + n % 64]

/-- Python `str.encode()` (UTF-8). -/
def utf8Encode (s : List Char) : List Nat := s.flatMap utf8Char

/-- The 64 MD5 sine-derived constants `K[i] = floor(2^32 * |sin(i+1)|)`. -/
def md5K : List Nat :=
  [0xd76aa478, 0xe8c7b756, 0x242070db, 0xc1bdceee,
   0xf57c0faf, 0x4787c62a, 0xa8304613, 0xfd469501,
   0x698098d8, 0x8b44f7af, 0xffff5bb1, 0x895cd7be,
   0x6b901122, 0xfd987193, 0xa679438e, 0x49b40821,
   0xf61e2562, 0xc040b340, 0x265e5a51, 0xe9b6c7aa,
   0xd62f105d, 0x02441453, 0xd8a1e681, 0xe7d3fbc8,
   0x21e1cde6, 0xc33707d6, 0xf4d50d87, 0x455a14ed,
   0xa9e3e905, 0xfcefa3f8, 0x676f02d9, 0x8d2a4c8a,
   0xfffa3942, 0x8771f681, 0x6d9d6122, 0xfde5380c,
   0xa4beea44, 0x4bdecfa9, 0xf6bb4b60, 0xbebfbc70,
   0x289b7ec6, 0xeaa127fa, 0xd4ef3085, 0x04881d05,
   0xd9d4d039, 0xe6db99e5, 0x1fa27cf8, 0xc4ac5665,
   0xf4292244, 0x432aff97, 0xab9423a7, 0xfc93a039,
   0x655b59c3, 0x8f0ccc92, 0xffeff47d, 0x85845dd1,
   0x6fa87e4f, 0xfe2ce6e0, 0xa3014314, 0x4e0811a1,
   0xf7537e82, 0xbd3af235, 0x2ad7d2bb, 0xeb86d391]

/-- The MD5 per-step left-rotation amounts. -/
def md5S : List Nat :=
  [7, 12, 17, 22, 7, 12, 17, 22, 7, 12, 17, 22, 7, 12, 17, 22,
   5,  9, 14, 20, 5,  9, 14, 20, 5,  9, 14, 20, 5,  9, 14, 20,
   4, 11, 16, 23, 4, 11, 16, 23, 4, 11, 16, 23, 4, 11, 16, 23,
   6, 10, 15, 21, 6, 10, 15, 21, 6, 10, 15, 21, 6, 10, 15, 21]

def add32 (a b : Nat) : Nat := (a + b) % 4294967296

def not32 (a : Nat) : Nat := 4294967295 - a

def rotl32 (x s : Nat) : Nat := (x * 2 ^ s) % 4294967296 + x / 2 ^ (32 - s)

/-- MD5 padding: append `0x80`, zero-pad to 56 mod 64, then the original
length in bits as a 64-bit little-endian quantity. -/
def md5Pad (msg : List Nat) : List Nat :=
  let bitLen := msg.length * 8
  let padZeros := (119 - msg.length % 64) % 64
  msg ++ 0x80 :: List.replicate padZeros 0 ++
    (List.range 8).map (fun i => bitLen / 2 ^ (8 * i) % 256)

/-- Little-endian 32-bit words of one 64-byte chunk. -/
def md5Words (chunk : List Nat) : List Nat :=
  (List.range 16).map fun j =>
    chunk.getD (4 * j) 0 + chunk.getD (4 * j + 1) 0 * 256 +
    chunk.getD (4 * j + 2) 0 * 65536 + chunk.getD (4 * j + 3) 0 * 16777216

/-- One MD5 step (step index `i`, state `(A, B, C, D)`, message words `m`). -/
def md5Step (m : List Nat) (i : Nat) : Nat × Nat × Nat × Nat → Nat × Nat × Nat × Nat
  | (a, b, c, d) =>
    let fg : Nat × Nat :=
      if i < 16 then (Nat.lor (Nat.land b c) (Nat.land (not32 b) d), i)
      else if i < 32 then (Nat.lor (Nat.land d b) (Nat.land (not32 d) c), (5 * i + 1) % 16)
      else if i < 48 then (Nat.xor b (Nat.xor c d), (3 * i + 5) % 16)
      else (Nat.xor c (Nat.lor b (not32 d)), (7 * i) % 16)
    let f := add32 (add32 (add32 fg.1 a) (md5K.getD i 0)) (m.getD fg.2 0)
    (d, add32 b (rotl32 f (md5S.getD i 0)), b, c)

/-- Apply the MD5 steps in ascending order: `md5Steps m k st` performs
steps `64 - k, …, 63`; `md5Steps m 64` is the full 64-step compression. -/
def md5Steps (m : List Nat) : Nat → Nat × Nat × Nat × Nat → Nat × Nat × Nat × Nat
  | 0, st => st
  | i + 1, st => md5Steps m i (md5Step m (63 - i) st)

/-- Process `k` 64-byte chunks of a padded message. -/
def md5Chunks (k : Nat) (l : List Nat) : Nat × Nat × Nat × Nat → Nat × Nat × Nat × Nat :=
  match k with
  | 0 => fun st => st
  | k + 1 => fun (a0, b0, c0, d0) =>
    let m := md5Words (l.take 64)
    let st := md5Steps m 64 (a0, b0, c0, d0)
    md5Chunks k (l.drop 64) (add32 a0 st.1, add32 b0 st.2.1, add32 c0 st.2.2.1, add32 d0 st.2.2.2)

def hexDigit (n : Nat) : Char :=
  if n < 10 then Char.ofNat (48 + n) else Char.ofNat (87 + n)

/-- Little-endian hex rendering of one 32-bit word (8 hex digits). -/
def hexWord32 (w : Nat) : List Char :=
  (List.range 4).flatMap fun i =>
    [hexDigit (w / 2 ^ (8 * i) / 16 % 16), hexDigit (w / 2 ^ (8 * i) % 16)]

/-- MD5 hex digest of a byte list. -/
def md5Hex (msg : List Nat) : String :=
  let padded := md5Pad msg
  let st := md5Chunks (padded.length / 64) padded
    (0x67452301, 0xefcdab89, 0x98badcfe, 0x10325476)
  ⟨hexWord32 st.1 ++ hexWord32 st.2.1 ++ hexWord32 st.2.2.1 ++ hexWord32 st.2.2.2⟩

/-- `DuplicationDetectorAgent.get_code_hash` (agent_duplication.py 42-45):
`hashlib.md5(self.normalize_code(code).encode()).hexdigest()`. -/
def get_code_hash (code : String) : String :=
  md5Hex (utf8Encode (normalize_code code).data)

set_option maxRecDepth 100000 in
example : md5Hex [] = "d41d8cd98f00b204e9800998ecf8427e" := by decide

set_option maxRecDepth 100000 in
example : md5Hex (utf8Encode "abc".data) = "900150983cd24fb0d6963f7d28e17f72" := by
  decide

/-! ## Structural predicates used to settle C1 and C2

`hasPairBy p l` holds when some two adjacent characters of `l` satisfy `p`;
it specialises to "contains `//`" (`ddPair`), "contains `/*`" (`opPair`),
"contains `*/`" (`clPair`) and "contains two adjacent whitespace
characters" (`wsPair`).  `hasBlockMatch l` holds exactly when the block
comment regex `/\*.*?\*/` matches somewhere in `l`, i.e. when `rmBlock`
rewrites `l`. -/

def hasPairBy (p : Char → Char → Bool) : List Char → Bool
  | x :: y :: rest => p x y || hasPairBy p (y :: rest)
  | _ => false

def ddPair (x y : Char) : Bool := x == '/' && y == '/'

def opPair (x y : Char) : Bool := x == '/' && y == '*'

def clPair (x y : Char) : Bool := x == '*' && y == '/'

def wsPair (x y : Char) : Bool := isPyWs x && isPyWs y

def hasBlockMatch : List Char → Bool
  | '/' :: '*' :: rest => (findClose rest).isSome
  | _ :: rest => hasBlockMatch rest
  | [] => false

theorem hasPairBy_nil (p : Char → Char → Bool) : hasPairBy p [] = false := rfl

theorem hasPairBy_one (p : Char → Char → Bool) (c : Char) :
    hasPairBy p [c] = false := rfl

theorem hasPairBy_two (p : Char → Char → Bool) (x y : Char) (rest : List Char) :
    hasPairBy p (x :: y :: rest) = (p x y || hasPairBy p (y :: rest)) := rfl

theorem hasPairBy_tail {p : Char → Char → Bool} {c : Char} {l : List Char}
    (h : hasPairBy p (c :: l) = false) : hasPairBy p l = false := by
  cases l with
  | nil => rfl
  | cons y rest => rw [hasPairBy_two] at h; exact (Bool.or_eq_false_iff.mp h).2

theorem hasPairBy_head {p : Char → Char → Bool} {x y : Char} {l : List Char}
    (h : hasPairBy p (x :: y :: l) = false) : p x y = false := by
  rw [hasPairBy_two] at h; exact (Bool.or_eq_false_iff.mp h).1

/-- Adjacent pairs of a prefix are adjacent pairs of the whole list. -/
theorem hasPairBy_append_left {p : Char → Char → Bool} :
    ∀ {l t : List Char}, hasPairBy p (l ++ t) = false → hasPairBy p l = false
  | [], _, _ => rfl
  | [_], _, _ => rfl
  | x :: y :: rest, t, h => by
    rw [hasPairBy_two]
    rw [List.cons_append, List.cons_append, hasPairBy_two] at h
    rcases Bool.or_eq_false_iff.mp h with ⟨h1, h2⟩
    rw [h1, Bool.false_or]
    exact hasPairBy_append_left (by rw [← List.cons_append] at h2; exact h2)

/-- Adjacent pairs of a suffix are adjacent pairs of the whole list. -/
theorem hasPairBy_append_right {p : Char → Char → Bool} :
    ∀ {t l : List Char}, hasPairBy p (t ++ l) = false → hasPairBy p l = false
  | [], _, h => h
  | _ :: t, _, h => hasPairBy_append_right (hasPairBy_tail h)

/-- Adjacent pairs of an infix are adjacent pairs of the whole list. -/
theorem hasPairBy_infix {p : Char → Char → Bool} {u m v : List Char}
    (h : hasPairBy p (u ++ m ++ v) = false) : hasPairBy p m = false :=
  hasPairBy_append_right (hasPairBy_append_left h)

theorem hasBlockMatch_nil : hasBlockMatch [] = false := rfl

theorem hasBlockMatch_open (rest : List Char) :
    hasBlockMatch ('/' :: '*' :: rest) = (findClose rest).isSome := rfl

/-- Unless the list starts with the two characters `/*`, `hasBlockMatch`
ignores the head. -/
theorem hasBlockMatch_cons {c : Char} {l : List Char}
    (h : c = '/' → ∀ rest, l ≠ '*' :: rest) :
    hasBlockMatch (c :: l) = hasBlockMatch l := by
  rw [hasBlockMatch.eq_def]
  split
  · rename_i heq
    injection heq with h1 h2
    exact absurd h2 (h h1 _)
  · rename_i heq
    injection heq with h1 h2
    rw [h2]
  · simp at *

theorem hasPairBy_lift {p : Char → Char → Bool} (c : Char) :
    ∀ {l : List Char}, hasPairBy p l = true → hasPairBy p (c :: l) = true := by
  intro l h
  cases l with
  | nil => simp [hasPairBy_nil] at h
  | cons y r => rw [hasPairBy_two, h, Bool.or_true]

theorem findClose_none_iff :
    ∀ {l : List Char}, findClose l = none ↔ hasPairBy clPair l = false := by
  intro l
  induction l using findClose.induct with
  | case1 => simp [findClose, hasPairBy_nil]
  | case2 => simp [findClose, hasPairBy_one]
  | case3 x y rest h =>
    obtain ⟨h1, h2⟩ := h
    subst h1; subst h2
    rw [findClose, if_pos ⟨rfl, rfl⟩, hasPairBy_two]
    simp [clPair]
  | case4 x y rest h ih =>
    rw [findClose, if_neg h, hasPairBy_two]
    have hcl : clPair x y = false := by
      by_contra hc
      simp only [Bool.not_eq_false, clPair, Bool.and_eq_true, beq_iff_eq] at hc
      exact h hc
    rw [hcl, Bool.false_or]
    exact ih

/-- A block-comment match contains a `*/` pair. -/
theorem hasBlockMatch_clPair :
    ∀ {l : List Char}, hasBlockMatch l = true → hasPairBy clPair l = true := by
  intro l
  induction l with
  | nil => intro h; simp [hasBlockMatch_nil] at h
  | cons c rest ih =>
    intro h
    by_cases hop : c = '/' ∧ ∃ r, rest = '*' :: r
    · obtain ⟨hc, r, hr⟩ := hop
      subst hc; subst hr
      rw [hasBlockMatch_open] at h
      have hcl : hasPairBy clPair r = true := by
        by_contra hcl
        rw [Bool.not_eq_true] at hcl
        rw [findClose_none_iff.mpr hcl] at h
        simp at h
      exact hasPairBy_lift _ (hasPairBy_lift _ hcl)
    · push_neg at hop
      have hcons : hasBlockMatch (c :: rest) = hasBlockMatch rest := by
        apply hasBlockMatch_cons
        intro hc r hr
        exact hop hc r hr
      rw [hcons] at h
      exact hasPairBy_lift _ (ih h)

/-! ### Equations and invariants for `rmLine` -/

theorem rmLine_nil (m : Bool) : rmLine m [] = [] := by cases m <;> rfl

theorem rmLine_true_cons (c : Char) (rest : List Char) :
    rmLine true (c :: rest) =
      if c = '\n' then '\n' :: rmLine false rest else rmLine true rest := rfl

theorem rmLine_dd (rest : List Char) :
    rmLine false ('/' :: '/' :: rest) = rmLine true rest := rfl

theorem rmLine_cons {c : Char} {rest : List Char} (h : c = '/' → ∀ r, rest ≠ '/' :: r) :
    rmLine false (c :: rest) = c :: rmLine false rest := by
  rw [rmLine.eq_def]
  split
  · rename_i hb hl; exact absurd hb (by simp)
  · rename_i hb hl; exact absurd hb (by simp)
  · rename_i hb hl; exact absurd hl (by simp)
  · rename_i hb hl
    injection hl with h1 h2
    exact absurd h2 (h h1 _)
  · rename_i hb hl
    injection hl with h1 h2
    rw [h1, h2]

/-- The head of the output of `rmLine` is a newline, or (in normal mode)
the first input character. -/
theorem rmLine_shape : ∀ (m : Bool) (s : List Char), rmLine m s = [] ∨
    (∃ t, rmLine m s = '\n' :: t) ∨
    (m = false ∧ ∃ c r t, s = c :: r ∧ rmLine m s = c :: t) := by
  intro m s
  induction m, s using rmLine.induct with
  | case1 => left; rfl
  | case2 rest ih =>
    right; left
    exact ⟨rmLine false rest, by rw [rmLine_true_cons, if_pos rfl]⟩
  | case3 c rest hne ih =>
    rw [rmLine_true_cons, if_neg hne]
    rcases ih with h | ⟨t, ht⟩ | ⟨hm, _⟩
    · left; exact h
    · right; left; exact ⟨t, ht⟩
    · cases hm
  | case4 => left; rfl
  | case5 rest ih =>
    rw [rmLine_dd]
    rcases ih with h | ⟨t, ht⟩ | ⟨hm, _⟩
    · left; exact h
    · right; left; exact ⟨t, ht⟩
    · cases hm
  | case6 c rest hne ih =>
    right; right
    refine ⟨rfl, c, rest, rmLine false rest, rfl, ?_⟩
    exact rmLine_cons (fun h1 r h2 => hne r h1 h2)

/-- The output of `rmLine` never contains two adjacent slashes. -/
theorem rmLine_ddFree : ∀ (m : Bool) (s : List Char),
    hasPairBy ddPair (rmLine m s) = false := by
  intro m s
  induction m, s using rmLine.induct with
  | case1 => rfl
  | case2 rest ih =>
    rw [rmLine_true_cons, if_pos rfl]
    cases hnl : rmLine false rest with
    | nil => rfl
    | cons y t =>
      rw [hnl] at ih
      rw [hasPairBy_two, ih, Bool.or_false]
      simp [ddPair]
  | case3 c rest hne ih =>
    rw [rmLine_true_cons, if_neg hne]
    exact ih
  | case4 => rfl
  | case5 rest ih => rw [rmLine_dd]; exact ih
  | case6 c rest hne ih =>
    have heq : rmLine false (c :: rest) = c :: rmLine false rest :=
      rmLine_cons (fun h1 r h2 => hne r h1 h2)
    rw [heq]
    rcases rmLine_shape false rest with h | ⟨t, ht⟩ | ⟨_, d, r, t, hdr, ht⟩
    · rw [h]; rfl
    · rw [ht]; rw [ht] at ih
      rw [hasPairBy_two, ih, Bool.or_false]
      simp [ddPair]
    · rw [ht]; rw [ht] at ih
      rw [hasPairBy_two, ih, Bool.or_false]
      simp only [ddPair, Bool.and_eq_false_iff]
      by_cases hc : c = '/'
      · right
        subst hdr
        have hd : d ≠ '/' := fun hd => hne r hc (by rw [hd])
        simpa using hd
      · left; simpa using hc

/-- On input without adjacent slashes, `rmLine` is the identity. -/
theorem rmLine_fix : ∀ {s : List Char}, hasPairBy ddPair s = false →
    rmLine false s = s := by
  intro s
  induction s with
  | nil => intro _; rfl
  | cons c rest ih =>
    intro h
    have hcons : rmLine false (c :: rest) = c :: rmLine false rest := by
      apply rmLine_cons
      intro h1 r h2
      rw [h1, h2] at h
      rw [hasPairBy_two] at h
      simp [ddPair] at h
    rw [hcons, ih (hasPairBy_tail h)]

/-! ### Equations and invariants for `rmBlock` -/

theorem rmBlockF_nil : ∀ n, rmBlockF n [] = [] := by
  intro n; cases n <;> rfl

theorem rmBlockF_open (n : Nat) (rest : List Char) :
    rmBlockF (n + 1) ('/' :: '*' :: rest) =
      match findClose rest with
      | some r2 => rmBlockF n r2
      | none => '/' :: '*' :: rest := rfl

theorem rmBlockF_cons (n : Nat) {c : Char} {rest : List Char}
    (h : c = '/' → ∀ r, rest ≠ '*' :: r) :
    rmBlockF (n + 1) (c :: rest) = c :: rmBlockF n rest := by
  rw [rmBlockF.eq_def]
  split
  · rename_i hl; exact absurd hl (by simp)
  · rename_i hb hl; exact absurd hl (by simp)
  · rename_i hb hl
    injection hl with h1 h2
    exact absurd h2 (h h1 _)
  · rename_i hb hl
    injection hb with hb
    injection hl with h1 h2
    rw [hb, h1, h2]

theorem findClose_suffix : ∀ {l l' : List Char}, findClose l = some l' →
    ∃ u, l = u ++ l' := by
  intro l
  induction l using findClose.induct with
  | case1 => intro l' h; simp [findClose] at h
  | case2 => intro l' h; simp [findClose] at h
  | case3 x y rest h =>
    intro l' hcl
    rw [findClose, if_pos h] at hcl
    cases hcl
    exact ⟨[x, y], rfl⟩
  | case4 x y rest h ih =>
    intro l' hcl
    rw [findClose, if_neg h] at hcl
    obtain ⟨u, hu⟩ := ih hcl
    exact ⟨x :: u, by rw [List.cons_append, ← hu]⟩

theorem rmBlockF_irrel : ∀ (n : Nat) {m : Nat} {l : List Char},
    l.length ≤ n → l.length ≤ m → rmBlockF n l = rmBlockF m l := by
  intro n
  induction n with
  | zero =>
    intro m l hn _
    have hl : l = [] := List.eq_nil_of_length_eq_zero (Nat.le_zero.mp hn)
    subst hl
    rw [rmBlockF_nil, rmBlockF_nil]
  | succ n ih =>
    intro m l hn hm
    cases l with
    | nil => rw [rmBlockF_nil, rmBlockF_nil]
    | cons c rest =>
      cases m with
      | zero => simp at hm
      | succ m' =>
        by_cases hop : c = '/' ∧ ∃ r, rest = '*' :: r
        · obtain ⟨hc, r, hr⟩ := hop
          subst hc; subst hr
          rw [rmBlockF_open, rmBlockF_open]
          cases hfc : findClose r with
          | some r2 =>
            have hlen := findClose_length hfc
            simp only [List.length_cons] at hn hm
            exact ih (show r2.length ≤ n by omega) (show r2.length ≤ m' by omega)
          | none => rfl
        · push_neg at hop
          rw [rmBlockF_cons n hop, rmBlockF_cons m' hop]
          simp only [List.length_cons] at hn hm
          rw [show rmBlockF n rest = rmBlockF m' rest from
            ih (by omega) (by omega)]

theorem rmBlock_nil : rmBlock [] = [] := rfl

theorem rmBlock_open (rest : List Char) :
    rmBlock ('/' :: '*' :: rest) =
      match findClose rest with
      | some r2 => rmBlock r2
      | none => '/' :: '*' :: rest := by
  unfold rmBlock
  simp only [List.length_cons]
  rw [rmBlockF_open]
  cases hfc : findClose rest with
  | some r2 =>
    simp only
    have hlen := findClose_length hfc
    exact rmBlockF_irrel _ (by omega) (le_refl _)
  | none => simp only

theorem rmBlock_cons {c : Char} {rest : List Char} (h : c = '/' → ∀ r, rest ≠ '*' :: r) :
    rmBlock (c :: rest) = c :: rmBlock rest := by
  unfold rmBlock
  simp only [List.length_cons]
  rw [rmBlockF_cons _ h]

/-- On `//`-free input, `rmBlock` output is `//`-free and match-free. -/
theorem rmBlock_main : ∀ (n : Nat) (s : List Char), s.length ≤ n →
    hasPairBy ddPair s = false →
    hasPairBy ddPair (rmBlock s) = false ∧ hasBlockMatch (rmBlock s) = false := by
  intro n
  induction n with
  | zero =>
    intro s hn _
    have hl : s = [] := List.eq_nil_of_length_eq_zero (Nat.le_zero.mp hn)
    subst hl
    exact ⟨rfl, rfl⟩
  | succ n ih =>
    intro s hn hdd
    cases s with
    | nil => exact ⟨rfl, rfl⟩
    | cons c rest =>
      by_cases hop : c = '/' ∧ ∃ r, rest = '*' :: r
      · obtain ⟨hc, r, hr⟩ := hop
        subst hc; subst hr
        rw [rmBlock_open]
        cases hfc : findClose r with
        | some r2 =>
          simp only
          obtain ⟨u, hu⟩ := findClose_suffix hfc
          have hdd2 : hasPairBy ddPair r2 = false :=
            hasPairBy_append_right (hu ▸ hasPairBy_tail (hasPairBy_tail hdd))
          have hlen := findClose_length hfc
          simp only [List.length_cons] at hn
          exact ih r2 (by omega) hdd2
        | none =>
          simp only
          rw [hasBlockMatch_open, hfc]
          exact ⟨hdd, rfl⟩
      · push_neg at hop
        rw [rmBlock_cons hop]
        simp only [List.length_cons] at hn
        obtain ⟨ht1, ht2⟩ := ih rest (by omega) (hasPairBy_tail hdd)
        have hhead : c = '/' → rmBlock rest = [] ∨
            ∃ d t, rmBlock rest = d :: t ∧ d ≠ '/' ∧ d ≠ '*' := by
          intro hc
          cases rest with
          | nil => left; rfl
          | cons d r =>
            right
            have hd1 : d ≠ '/' := by
              intro hd
              rw [hc, hd, hasPairBy_two] at hdd
              simp [ddPair] at hdd
            have hd2 : d ≠ '*' := by
              intro hd
              exact hop hc r (by rw [hd])
            exact ⟨d, rmBlock r, rmBlock_cons (fun h' => absurd h' hd1), hd1, hd2⟩
        constructor
        · cases hT : rmBlock rest with
          | nil => rfl
          | cons y t =>
            rw [hT] at ht1
            rw [hasPairBy_two, ht1, Bool.or_false]
            by_cases hc : c = '/'
            · rcases hhead hc with h0 | ⟨d, t', hdt, hd1, _⟩
              · rw [h0] at hT; cases hT
              · rw [hdt] at hT
                injection hT with hy _
                simp [ddPair, hy ▸ hd1]
            · simp [ddPair, hc]
        · have hcons : hasBlockMatch (c :: rmBlock rest) = hasBlockMatch (rmBlock rest) := by
            apply hasBlockMatch_cons
            intro hc r' hr'
            rcases hhead hc with h0 | ⟨d, t', hdt, _, hd2⟩
            · rw [h0] at hr'; cases hr'
            · rw [hdt] at hr'
              injection hr' with hy _
              exact hd2 hy
          rw [hcons]
          exact ht2

/-- On match-free input, `rmBlock` is the identity. -/
theorem rmBlock_fix : ∀ (n : Nat) (s : List Char), s.length ≤ n →
    hasBlockMatch s = false → rmBlock s = s := by
  intro n
  induction n with
  | zero =>
    intro s hn _
    have hl : s = [] := List.eq_nil_of_length_eq_zero (Nat.le_zero.mp hn)
    subst hl; rfl
  | succ n ih =>
    intro s hn hbm
    cases s with
    | nil => rfl
    | cons c rest =>
      by_cases hop : c = '/' ∧ ∃ r, rest = '*' :: r
      · obtain ⟨hc, r, hr⟩ := hop
        subst hc; subst hr
        rw [hasBlockMatch_open] at hbm
        rw [rmBlock_open]
        cases hfc : findClose r with
        | some r2 => rw [hfc] at hbm; simp at hbm
        | none => simp only
      · push_neg at hop
        rw [rmBlock_cons hop]
        have hcons : hasBlockMatch (c :: rest) = hasBlockMatch rest := by
          apply hasBlockMatch_cons
          intro hc r' hr'
          exact hop hc r' hr'
        rw [hcons] at hbm
        simp only [List.length_cons] at hn
        rw [ih rest (by omega) hbm]

/-! ### More `hasBlockMatch` monotonicity lemmas -/

theorem hasBlockMatch_one (c : Char) : hasBlockMatch [c] = false := by
  rw [hasBlockMatch_cons (fun _ r hr => by cases hr)]; rfl

theorem hasBlockMatch_tail {c : Char} {l : List Char}
    (h : hasBlockMatch (c :: l) = false) : hasBlockMatch l = false := by
  by_cases hop : c = '/' ∧ ∃ r, l = '*' :: r
  · obtain ⟨hc, r, hr⟩ := hop
    subst hc; subst hr
    rw [hasBlockMatch_open] at h
    by_contra hbm
    rw [Bool.not_eq_false] at hbm
    have h1 : hasBlockMatch ('*' :: r) = hasBlockMatch r :=
      hasBlockMatch_cons (fun hc => by cases hc)
    rw [h1] at hbm
    have hcl := hasBlockMatch_clPair hbm
    cases hfc : findClose r with
    | some r2 => rw [hfc] at h; simp at h
    | none => rw [findClose_none_iff.mp hfc] at hcl; cases hcl
  · push_neg at hop
    rw [hasBlockMatch_cons hop] at h
    exact h

theorem hasBlockMatch_append_right : ∀ {t l : List Char},
    hasBlockMatch (t ++ l) = false → hasBlockMatch l = false
  | [], _, h => h
  | _ :: t, _, h => hasBlockMatch_append_right (hasBlockMatch_tail h)

theorem hasBlockMatch_append_left : ∀ {l t : List Char},
    hasBlockMatch (l ++ t) = false → hasBlockMatch l = false := by
  intro l
  induction l with
  | nil => intro t _; rfl
  | cons c l' ih =>
    intro t h
    cases l' with
    | nil => exact hasBlockMatch_one c
    | cons d r' =>
      by_cases hop : c = '/' ∧ d = '*'
      · obtain ⟨hc, hd⟩ := hop
        subst hc; subst hd
        rw [List.cons_append, List.cons_append, hasBlockMatch_open] at h
        rw [hasBlockMatch_open]
        have hcl : hasPairBy clPair (r' ++ t) = false := by
          cases hfc : findClose (r' ++ t) with
          | some r2 => rw [hfc] at h; simp at h
          | none => exact findClose_none_iff.mp hfc
        rw [findClose_none_iff.mpr (hasPairBy_append_left hcl)]
        rfl
      · have hcne : c = '/' → ∀ r, d :: (r' ++ t) ≠ '*' :: r := by
          intro hc r hr
          injection hr with h1 _
          exact hop ⟨hc, h1⟩
        have hcne2 : c = '/' → ∀ r, d :: r' ≠ '*' :: r := by
          intro hc r hr
          injection hr with h1 _
          exact hop ⟨hc, h1⟩
        simp only [List.cons_append] at h
        rw [hasBlockMatch_cons hcne] at h
        rw [hasBlockMatch_cons hcne2]
        exact ih (by simp only [List.cons_append]; exact h)

theorem hasBlockMatch_infix {u m v : List Char}
    (h : hasBlockMatch (u ++ m ++ v) = false) : hasBlockMatch m = false :=
  hasBlockMatch_append_right (hasBlockMatch_append_left h)

/-! ### Equations and invariants for `collapseGo` / `pyStrip` -/

theorem collapseGo_nil (m : Bool) : collapseGo m [] = [] := rfl

theorem collapseGo_ws {c : Char} (hc : isPyWs c = true) (m : Bool) (rest : List Char) :
    collapseGo m (c :: rest) =
      if m then collapseGo true rest else ' ' :: collapseGo true rest := by
  cases m <;> simp [collapseGo, hc]

theorem collapseGo_nws {c : Char} (hc : isPyWs c = false) (m : Bool) (rest : List Char) :
    collapseGo m (c :: rest) = c :: collapseGo false rest := by
  cases m <;> simp [collapseGo, hc]

/-- In run mode, the output starts with a non-whitespace character. -/
theorem collapseGo_head_true : ∀ (s : List Char), collapseGo true s = [] ∨
    ∃ d t, collapseGo true s = d :: t ∧ isPyWs d = false := by
  intro s
  induction s with
  | nil => left; rfl
  | cons c rest ih =>
    by_cases hc : isPyWs c
    · rw [collapseGo_ws hc, if_pos rfl]; exact ih
    · right
      rw [collapseGo_nws (by simpa using hc)]
      exact ⟨c, _, rfl, by simpa using hc⟩

theorem collapseGo_hasPairBy {p : Char → Char → Bool}
    (hp : ∀ x y, p x y = true → isPyWs x = false ∧ isPyWs y = false) :
    ∀ (s : List Char) (m : Bool), hasPairBy p s = false →
      hasPairBy p (collapseGo m s) = false := by
  intro s
  induction s with
  | nil => intro m _; rfl
  | cons c rest ih =>
    intro m h
    have hrest := ih true (hasPairBy_tail h)
    have hrestf := ih false (hasPairBy_tail h)
    by_cases hc : isPyWs c
    · rw [collapseGo_ws hc]
      cases m with
      | true => rw [if_pos rfl]; exact hrest
      | false =>
        rw [if_neg (by simp)]
        cases hT : collapseGo true rest with
        | nil => rfl
        | cons y t =>
          rw [hT] at hrest
          rw [hasPairBy_two, hrest, Bool.or_false]
          by_contra hpair
          rw [Bool.not_eq_false] at hpair
          have := (hp _ _ hpair).1
          simp [isPyWs] at this
    · rw [collapseGo_nws (by simpa using hc)]
      cases rest with
      | nil => rfl
      | cons d r =>
        by_cases hd : isPyWs d
        · rw [collapseGo_ws hd, if_neg (by simp)]
          rw [collapseGo_ws hd, if_neg (by simp)] at hrestf
          rw [hasPairBy_two, hrestf, Bool.or_false]
          by_contra hpair
          rw [Bool.not_eq_false] at hpair
          have := (hp _ _ hpair).2
          simp [isPyWs] at this
        · rw [collapseGo_nws (by simpa using hd)]
          rw [collapseGo_nws (by simpa using hd)] at hrestf
          rw [hasPairBy_two, hrestf, Bool.or_false]
          exact hasPairBy_head h

theorem collapseGo_hasBlockMatch :
    ∀ (s : List Char) (m : Bool), hasBlockMatch s = false →
      hasBlockMatch (collapseGo m s) = false := by
  intro s
  induction s with
  | nil => intro m _; rfl
  | cons c rest ih =>
    intro m h
    by_cases hc : isPyWs c
    · have hcne : c ≠ '/' := by
        intro he; rw [he] at hc; simp [isPyWs] at hc
      have h' : hasBlockMatch rest = false := by
        rw [hasBlockMatch_cons (fun he => absurd he hcne)] at h
        exact h
      rw [collapseGo_ws hc]
      have hrest := ih true h'
      cases m with
      | true => rw [if_pos rfl]; exact hrest
      | false =>
        rw [if_neg (by simp)]
        rw [hasBlockMatch_cons (fun he => by cases he)]
        exact hrest
    · rw [collapseGo_nws (by simpa using hc)]
      cases rest with
      | nil => exact hasBlockMatch_one c
      | cons d r =>
        by_cases hcd : c = '/' ∧ d = '*'
        · obtain ⟨hc1, hd1⟩ := hcd
          subst hc1; subst hd1
          rw [collapseGo_nws (show isPyWs '*' = false by decide)]
          rw [hasBlockMatch_open]
          rw [hasBlockMatch_open] at h
          have hcl : hasPairBy clPair r = false := by
            cases hfc : findClose r with
            | some r2 => rw [hfc] at h; simp at h
            | none => exact findClose_none_iff.mp hfc
          have hcl2 : hasPairBy clPair (collapseGo false r) = false :=
            collapseGo_hasPairBy
              (fun x y hxy => by
                simp only [clPair, Bool.and_eq_true, beq_iff_eq] at hxy
                rw [hxy.1, hxy.2]; exact ⟨by decide, by decide⟩)
              r false hcl
          rw [findClose_none_iff.mpr hcl2]
          rfl
        · have h' : hasBlockMatch (d :: r) = false := by
            rw [hasBlockMatch_cons (fun hc' r' hr' => by
              injection hr' with h1 _
              exact hcd ⟨hc', h1⟩)] at h
            exact h
          have hT := ih false h'
          by_cases hd : isPyWs d
          · rw [collapseGo_ws hd, if_neg (by simp)]
            rw [collapseGo_ws hd, if_neg (by simp)] at hT
            rw [hasBlockMatch_cons (fun _ r' hr' => by
              injection hr' with h1 _
              exact absurd h1.symm (by decide))]
            exact hT
          · rw [collapseGo_nws (by simpa using hd)]
            rw [collapseGo_nws (by simpa using hd)] at hT
            rw [hasBlockMatch_cons (fun hc' r' hr' => by
              injection hr' with h1 _
              exact hcd ⟨hc', h1⟩)]
            exact hT

theorem collapseGo_allSpace : ∀ (s : List Char) (m : Bool),
    ∀ c ∈ collapseGo m s, isPyWs c = true → c = ' ' := by
  intro s
  induction s with
  | nil => intro m c hc; cases hc
  | cons c rest ih =>
    intro m d hd hws
    by_cases hc : isPyWs c
    · rw [collapseGo_ws hc] at hd
      cases m with
      | true => rw [if_pos rfl] at hd; exact ih true d hd hws
      | false =>
        rw [if_neg (by simp)] at hd
        rcases List.mem_cons.mp hd with h0 | h0
        · exact h0
        · exact ih true d h0 hws
    · rw [collapseGo_nws (by simpa using hc)] at hd
      rcases List.mem_cons.mp hd with h0 | h0
      · rw [h0] at hws; exact absurd hws (by simpa using hc)
      · exact ih false d h0 hws

theorem collapseGo_wsPairFree : ∀ (s : List Char) (m : Bool),
    hasPairBy wsPair (collapseGo m s) = false := by
  intro s
  induction s with
  | nil => intro m; rfl
  | cons c rest ih =>
    intro m
    by_cases hc : isPyWs c
    · rw [collapseGo_ws hc]
      cases m with
      | true => rw [if_pos rfl]; exact ih true
      | false =>
        rw [if_neg (by simp)]
        rcases collapseGo_head_true rest with h0 | ⟨d, t, hdt, hd⟩
        · rw [h0]; rfl
        · have ih1 := ih true
          rw [hdt] at ih1
          rw [hdt, hasPairBy_two, ih1, Bool.or_false]
          simp [wsPair, hd]
    · rw [collapseGo_nws (by simpa using hc)]
      cases hT : collapseGo false rest with
      | nil => rfl
      | cons y t =>
        have ih1 := ih false
        rw [hT] at ih1
        rw [hasPairBy_two, ih1, Bool.or_false]
        simp only [wsPair, Bool.and_eq_false_iff]
        left; simpa using hc

/-- On already-collapsed input (all whitespace is a single interior space),
`collapseGo false` is the identity. -/
theorem collapseGo_fix : ∀ (n : Nat) (s : List Char), s.length ≤ n →
    (∀ c ∈ s, isPyWs c = true → c = ' ') → hasPairBy wsPair s = false →
    collapseGo false s = s := by
  intro n
  induction n with
  | zero =>
    intro s hn _ _
    have hl : s = [] := List.eq_nil_of_length_eq_zero (Nat.le_zero.mp hn)
    subst hl; rfl
  | succ n ih =>
    intro s hn hall hws
    cases s with
    | nil => rfl
    | cons c rest =>
      simp only [List.length_cons] at hn
      by_cases hc : isPyWs c
      · have hcs : c = ' ' := hall c (by simp) hc
        rw [collapseGo_ws hc, if_neg (by simp)]
        cases rest with
        | nil => rw [hcs]; rfl
        | cons d r =>
          have hd : isPyWs d = false := by
            have := hasPairBy_head hws
            simp only [wsPair, Bool.and_eq_false_iff] at this
            rcases this with h0 | h0
            · rw [hc] at h0; cases h0
            · exact h0
          rw [collapseGo_nws hd]
          rw [ih r (by simp at hn ⊢; omega)
            (fun e he hew => hall e (by simp [he]) hew)
            (hasPairBy_tail (hasPairBy_tail hws))]
          rw [hcs]
      · rw [collapseGo_nws (by simpa using hc)]
        rw [ih rest (by omega) (fun e he hew => hall e (by simp [he]) hew)
          (hasPairBy_tail hws)]

theorem dropWhile_head_false : ∀ {l : List Char} {c : Char} {t : List Char},
    l.dropWhile isPyWs = c :: t → isPyWs c = false := by
  intro l
  induction l with
  | nil => intro c t h; cases h
  | cons d r ih =>
    intro c t h
    by_cases hd : isPyWs d
    · rw [List.dropWhile_cons, if_pos hd] at h
      exact ih h
    · rw [List.dropWhile_cons, if_neg hd] at h
      injection h with h1 _
      rw [← h1]
      simpa using hd

theorem dropWhile_eq_self {l : List Char}
    (h : ∀ c t, l = c :: t → isPyWs c = false) : l.dropWhile isPyWs = l := by
  cases l with
  | nil => rfl
  | cons c t =>
    rw [List.dropWhile_cons, if_neg (by rw [h c t rfl]; simp)]

/-- The strip result sits inside the original text. -/
theorem pyStrip_decomp (l : List Char) : ∃ u v, l = u ++ pyStrip l ++ v := by
  refine ⟨l.takeWhile isPyWs, ((l.dropWhile isPyWs).reverse.takeWhile isPyWs).reverse, ?_⟩
  conv_lhs => rw [← List.takeWhile_append_dropWhile (p := isPyWs) (l := l)]
  rw [List.append_assoc]
  congr 1
  conv_lhs => rw [← List.reverse_reverse (l.dropWhile isPyWs)]
  conv_lhs =>
    rw [← List.takeWhile_append_dropWhile (p := isPyWs)
      (l := (l.dropWhile isPyWs).reverse)]
  rw [List.reverse_append]
  rfl

theorem pyStrip_head_false {l : List Char} {c : Char} {t : List Char}
    (h : pyStrip l = c :: t) : isPyWs c = false := by
  have hW : l.dropWhile isPyWs =
      (c :: t) ++ ((l.dropWhile isPyWs).reverse.takeWhile isPyWs).reverse := by
    conv_lhs => rw [← List.reverse_reverse (l.dropWhile isPyWs)]
    conv_lhs =>
      rw [← List.takeWhile_append_dropWhile (p := isPyWs)
        (l := (l.dropWhile isPyWs).reverse)]
    rw [List.reverse_append, ← h]
    rfl
  rw [List.cons_append] at hW
  exact dropWhile_head_false hW

theorem pyStrip_rev_head_false {l : List Char} {c : Char} {t : List Char}
    (h : (pyStrip l).reverse = c :: t) : isPyWs c = false := by
  have hZ : (pyStrip l).reverse = (l.dropWhile isPyWs).reverse.dropWhile isPyWs := by
    rw [pyStrip, List.reverse_reverse]
  rw [hZ] at h
  exact dropWhile_head_false h

theorem pyStrip_fix {l : List Char}
    (h1 : ∀ c t, l = c :: t → isPyWs c = false)
    (h2 : ∀ c t, l.reverse = c :: t → isPyWs c = false) : pyStrip l = l := by
  rw [pyStrip, dropWhile_eq_self h1, dropWhile_eq_self h2, List.reverse_reverse]

theorem pyStrip_idem (l : List Char) : pyStrip (pyStrip l) = pyStrip l :=
  pyStrip_fix (fun _ _ h => pyStrip_head_false h)
    (fun _ _ h => pyStrip_rev_head_false h)

theorem ddPair_nws : ∀ a b : Char, ddPair a b = true →
    isPyWs a = false ∧ isPyWs b = false := by
  intro a b hab
  simp only [ddPair, Bool.and_eq_true, beq_iff_eq] at hab
  rw [hab.1, hab.2]
  exact ⟨by decide, by decide⟩

/-- Idempotence of `normalize_code`, assembled from the invariants above:
after one pass the text contains no `//`, no matchable `/ * … * /`, only
single interior spaces as whitespace, and no leading/trailing whitespace,
so every pass of a second application is the identity. -/
theorem normalize_code_idem (x : String) :
    normalize_code (normalize_code x) = normalize_code x := by
  obtain ⟨hdd2, hbm2⟩ := rmBlock_main (rmLine false x.data).length _ le_rfl
    (rmLine_ddFree false x.data)
  have hdd3 := collapseGo_hasPairBy ddPair_nws (rmBlock (rmLine false x.data)) false hdd2
  have hbm3 := collapseGo_hasBlockMatch (rmBlock (rmLine false x.data)) false hbm2
  have hwsp3 := collapseGo_wsPairFree (rmBlock (rmLine false x.data)) false
  have hall3 := collapseGo_allSpace (rmBlock (rmLine false x.data)) false
  obtain ⟨u, v, huv⟩ := pyStrip_decomp (collapseGo false (rmBlock (rmLine false x.data)))
  have hddn : hasPairBy ddPair
      (pyStrip (collapseGo false (rmBlock (rmLine false x.data)))) = false :=
    hasPairBy_infix (huv ▸ hdd3)
  have hbmn : hasBlockMatch
      (pyStrip (collapseGo false (rmBlock (rmLine false x.data)))) = false :=
    hasBlockMatch_infix (huv ▸ hbm3)
  have hwspn : hasPairBy wsPair
      (pyStrip (collapseGo false (rmBlock (rmLine false x.data)))) = false :=
    hasPairBy_infix (huv ▸ hwsp3)
  have halln : ∀ c ∈ pyStrip (collapseGo false (rmBlock (rmLine false x.data))),
      isPyWs c = true → c = ' ' := by
    intro c hc hw
    exact hall3 c (by rw [huv]; simp [hc]) hw
  show (⟨pyStrip (collapseGo false (rmBlock (rmLine false
      (pyStrip (collapseGo false (rmBlock (rmLine false x.data)))))))⟩ : String) =
    ⟨pyStrip (collapseGo false (rmBlock (rmLine false x.data)))⟩
  rw [rmLine_fix hddn,
    rmBlock_fix (pyStrip (collapseGo false (rmBlock (rmLine false x.data)))).length
      _ le_rfl hbmn,
    collapseGo_fix (pyStrip (collapseGo false (rmBlock (rmLine false x.data)))).length
      _ le_rfl halln hwspn,
    pyStrip_idem]

/-! ## A C token stream (for claim C1)

Modelled from the spec: the spec speaks of spans "differing only in
whitespace/comments" versus "differing in any token"; no tokenizer exists
in the source, so the spec's token notion is formalised here as a standard
C lexical analysis: comments and whitespace separate tokens and are not
tokens themselves; string/character literals are single tokens
(with backslash escapes); identifier/number characters form maximal runs;
any other character is a one-character token. -/

/-- Scan a string/character literal body up to the closing quote `q`,
honouring backslash escapes; returns the token tail and the rest. -/
def scanLit (q : Char) : List Char → List Char × List Char
  | [] => ([], [])
  | '\\' :: c :: rest =>
    let p := scanLit q rest
    ('\\' :: c :: p.1, p.2)
  | c :: rest =>
    if c = q then ([q], rest)
    else
      let p := scanLit q rest
      (c :: p.1, p.2)

def cTokensF : Nat → List Char → List (List Char)
  | 0, _ => []
  | _ + 1, [] => []
  | fuel + 1, '/' :: '/' :: rest =>
    cTokensF fuel (rest.dropWhile (fun d => !(d = '\n')))
  | fuel + 1, '/' :: '*' :: rest =>
    (match findClose rest with
     | some r2 => cTokensF fuel r2
     | none => [])
  | fuel + 1, c :: rest =>
    if isPyWs c then cTokensF fuel rest
    else if c = '"' ∨ c = '\'' then
      let p := scanLit c rest
      (c :: p.1) :: cTokensF fuel p.2
    else if isWordC c then
      (c :: rest.takeWhile isWordC) :: cTokensF fuel (rest.dropWhile isWordC)
    else [c] :: cTokensF fuel rest

/-- The C token stream of a text (ample fuel). -/
def cTokens (l : List Char) : List (List Char) := cTokensF (l.length + 1) l

example : cTokens "a /*\n// */ b".data = [['a'], ['b']] := by decide
example : cTokens "char *s = \"a//b\";".data =
    [['c', 'h', 'a', 'r'], ['*'], ['s'], ['='],
     ['"', 'a', '/', '/', 'b', '"'], [';']] := by decide

/-- A text without the two-character sequence `/*` has no block-comment
match. -/
theorem hasBlockMatch_of_opFree : ∀ {l : List Char},
    hasPairBy opPair l = false → hasBlockMatch l = false := by
  intro l
  induction l with
  | nil => intro _; rfl
  | cons c rest ih =>
    intro h
    by_cases hop : c = '/' ∧ ∃ r, rest = '*' :: r
    · obtain ⟨hc, r, hr⟩ := hop
      rw [hc, hr, hasPairBy_two] at h
      simp [opPair] at h
    · push_neg at hop
      rw [hasBlockMatch_cons hop]
      exact ih (hasPairBy_tail h)

/-! ## `extract_functions` (agent_duplication.py 47-86)

The loop scans the lines of the file: outside a function, a line matching
`^(\w+[\w\s\*]+)\s+(\w+)\s*\([^)]*\)\s*{` opens a span named by group 2;
inside a function, every line is appended and the running
`line.count('{') - line.count('}')` balance is updated; when the balance
reaches exactly 0 the span closes, and it is recorded in a Python dict
keyed by function name when its text is over 100 characters.  The Python
dict keeps the original insertion position when a key is overwritten;
`dictInsert` reproduces that. -/

/-- Python `content.split('\n')`. -/
def splitLines : List Char → List (List Char)
  | [] => [[]]
  | '\n' :: rest => [] :: splitLines rest
  | c :: rest =>
    match splitLines rest with
    | [] => [[c]]
    | l :: ls => (c :: l) :: ls

/-- Python `'\n'.join(lines)`. -/
def joinLines : List (List Char) → List Char
  | [] => []
  | [l] => l
  | l :: ls => l ++ '\n' :: joinLines ls

/-- `line.count('{') - line.count('}')` as an integer. -/
def braceDelta (line : List Char) : Int :=
  ((line.filter (fun c => c == '{')).length : Int) -
    ((line.filter (fun c => c == '}')).length : Int)

/-- Longest prefix of `line` usable for the regex group
`(\w+[\w\s\*]+)`: first character `\w`, remaining characters in
`[\w\s*]`. -/
def maxG1 : List Char → Nat
  | [] => 0
  | c :: rest =>
    if isWordC c then
      1 + (rest.takeWhile (fun d => isWordC d || isPyWs d || d == '*')).length
    else 0

/-- Parse the regex continuation `\s+(\w+)\s*\([^)]*\)\s*{` at offset `l`
of the line; the remaining quantifiers are deterministic (each greedy
quantifier is followed by a literal its character class excludes), so no
further backtracking is needed.  Returns group 2. -/
def contAt (line : List Char) (l : Nat) : Option (List Char) :=
  let r0 := line.drop l
  let r1 := r0.dropWhile isPyWs
  if r1.length = r0.length then none
  else
    let g2 := r1.takeWhile isWordC
    if g2 = [] then none
    else
      match (r1.dropWhile isWordC).dropWhile isPyWs with
      | '(' :: r3 =>
        match r3.dropWhile (fun d => !(d == ')')) with
        | ')' :: r5 =>
          (match r5.dropWhile isPyWs with
           | '{' :: _ => some g2
           | _ => none)
        | _ => none
      | _ => none

/-- Backtrack over group-1 lengths, longest first (Python `re` tries the
greedy group 1 at its longest and shrinks on failure). -/
def tryLens (line : List Char) : Nat → Option (List Char)
  | 0 => none
  | 1 => none
  | l + 2 =>
    match contAt line (l + 2) with
    | some g2 => some g2
    | none => tryLens line (l + 1)

/-- `re.match(func_pattern, line)`, returning `match.group(2)`. -/
def matchFunc (line : List Char) : Option (List Char) :=
  tryLens line (maxG1 line)

example : matchFunc "int f() \x7b".data = some ['f'] := by decide
example : matchFunc "int   f () \x7b".data = some ['f'] := by decide
example : matchFunc "a* b() \x7b".data = some ['b'] := by decide
example : matchFunc "a b() x \x7b".data = none := by decide
example : matchFunc "int f(a,b) \x7b  ".data = some ['f'] := by decide

/-- State of an open span: name, start line, accumulated lines, running
brace balance. -/
structure CurFn where
  name : List Char
  start : Nat
  lines : List (List Char)
  count : Int

/-- The chronological sequence of spans recorded by the scan loop of
`extract_functions` (entry: name, code text, start line). -/
def extrGo : Nat → Option CurFn → List (List Char) → List (List Char × (List Char × Nat))
  | _, _, [] => []
  | i, none, line :: rest =>
    match matchFunc line with
    | some name => extrGo (i + 1) (some ⟨name, i, [line], braceDelta line⟩) rest
    | none => extrGo (i + 1) none rest
  | i, some cur, line :: rest =>
    let lines2 := cur.lines ++ [line]
    let count2 := cur.count + braceDelta line
    if count2 = 0 then
      (if 100 < (joinLines lines2).length
       then [(cur.name, (joinLines lines2, cur.start))] else []) ++
        extrGo (i + 1) none rest
    else extrGo (i + 1) (some ⟨cur.name, cur.start, lines2, count2⟩) rest

/-- Python dict assignment `d[k] = v`: overwrite in place, else append. -/
def dictInsert (k : List Char) (v : List Char × Nat) :
    List (List Char × (List Char × Nat)) → List (List Char × (List Char × Nat))
  | [] => [(k, v)]
  | (k', v') :: rest =>
    if k' = k then (k, v) :: rest else (k', v') :: dictInsert k v rest

/-- `DuplicationDetectorAgent.extract_functions`: the returned dict as an
ordered association list, obtained by inserting the chronological records
in order with Python dict-update semantics. -/
def extract_functions (content : List Char) : List (List Char × (List Char × Nat)) :=
  (extrGo 1 none (splitLines content)).foldl (fun d r => dictInsert r.1 r.2 d) []

/-- The per-file `try` of `extract_functions` (agent_duplication.py
51-84): a file whose read raises yields the empty dict, and the scan over
the remaining files continues. -/
def extract_functions_file (file : Except String (List Char)) :
    List (List Char × (List Char × Nat)) :=
  match file with
  | Except.ok content => extract_functions content
  | Except.error _ => []

/-- Last line of a recorded span: start line plus line count minus one. -/
def endLine (r : List Char × (List Char × Nat)) : Nat :=
  r.2.2 + (splitLines r.2.1).length - 1

/-- Balanced braces over the whole file. -/
def braceBalanced (content : List Char) : Bool :=
  (content.filter (fun c => c == '{')).length ==
    (content.filter (fun c => c == '}')).length

/-- Lower bound for the start line of every span still to be recorded. -/
def curBound (i : Nat) : Option CurFn → Nat
  | some c => c.start
  | none => i

/-! ### `splitLines` / `joinLines` inverses -/

theorem splitLines_cons_ne {c : Char} {rest : List Char} (hc : c ≠ '\n') :
    ∀ l ls, splitLines rest = l :: ls → splitLines (c :: rest) = (c :: l) :: ls := by
  intro l ls h
  rw [splitLines.eq_def]
  split
  · rename_i heq; exact absurd heq (by simp)
  · rename_i heq
    injection heq with h1 _
    exact absurd h1 hc
  · rename_i heq
    injection heq with h1 h2
    subst h1; subst h2
    rw [h]

theorem splitLines_ne_nil : ∀ (s : List Char), splitLines s ≠ [] := by
  intro s
  induction s with
  | nil => simp [splitLines]
  | cons c rest ih =>
    by_cases hc : c = '\n'
    · subst hc; simp [splitLines]
    · cases hsp : splitLines rest with
      | nil => exact absurd hsp ih
      | cons l ls => rw [splitLines_cons_ne hc l ls hsp]; simp

theorem splitLines_no_nl : ∀ (s : List Char), ∀ l ∈ splitLines s, '\n' ∉ l := by
  intro s
  induction s with
  | nil =>
    intro l hl
    simp only [splitLines, List.mem_singleton] at hl
    subst hl; simp
  | cons c rest ih =>
    by_cases hc : c = '\n'
    · subst hc
      intro l hl
      simp only [splitLines, List.mem_cons] at hl
      rcases hl with h | h
      · subst h; simp
      · exact ih l h
    · cases hsp : splitLines rest with
      | nil => exact absurd hsp (splitLines_ne_nil rest)
      | cons l0 ls =>
        rw [splitLines_cons_ne hc l0 ls hsp]
        intro l hl
        rcases List.mem_cons.mp hl with h | h
        · subst h
          intro hmem
          rcases List.mem_cons.mp hmem with h | h
          · exact hc h.symm
          · exact ih l0 (hsp ▸ List.mem_cons_self l0 ls) h
        · exact ih l (hsp ▸ List.mem_cons_of_mem l0 h)

theorem splitLines_single : ∀ {l : List Char}, '\n' ∉ l → splitLines l = [l] := by
  intro l
  induction l with
  | nil => intro _; rfl
  | cons c rest ih =>
    intro h
    simp only [List.mem_cons, not_or] at h
    exact splitLines_cons_ne (fun he => h.1 he.symm) rest [] (ih h.2)

theorem splitLines_append_nl {t : List Char} : ∀ {l : List Char}, '\n' ∉ l →
    splitLines (l ++ '\n' :: t) = l :: splitLines t := by
  intro l
  induction l with
  | nil => intro _; rfl
  | cons c l' ih =>
    intro h
    simp only [List.mem_cons, not_or] at h
    rw [List.cons_append]
    exact splitLines_cons_ne (fun he => h.1 he.symm) _ _ (ih h.2)

theorem joinLines_split : ∀ (ls : List (List Char)), ls ≠ [] →
    (∀ l ∈ ls, '\n' ∉ l) → splitLines (joinLines ls) = ls := by
  intro ls
  induction ls with
  | nil => intro h _; exact absurd rfl h
  | cons l ls' ih =>
    intro _ hnl
    cases ls' with
    | nil =>
      show splitLines (joinLines [l]) = [l]
      exact splitLines_single (hnl l (by simp))
    | cons l2 ls'' =>
      show splitLines (l ++ '\n' :: joinLines (l2 :: ls'')) = _
      rw [splitLines_append_nl (hnl l (by simp))]
      rw [ih (by simp) (fun e he => hnl e (by simp [he]))]

/-! ### Invariants of the extraction scan -/

theorem extrGo_facts : ∀ (rest : List (List Char)) (i : Nat) (cur : Option CurFn),
    1 ≤ i →
    (∀ c, cur = some c → c.start + c.lines.length = i ∧ 1 ≤ c.start ∧
      c.lines ≠ [] ∧ (∀ l ∈ c.lines, '\n' ∉ l)) →
    (∀ l ∈ rest, '\n' ∉ l) →
    (∀ r ∈ extrGo i cur rest,
        100 < r.2.1.length ∧ curBound i cur ≤ r.2.2 ∧
        r.2.2 ≤ endLine r ∧ endLine r + 1 ≤ i + rest.length) ∧
      List.Pairwise (fun a b => endLine a < b.2.2) (extrGo i cur rest) := by
  intro rest
  induction rest with
  | nil =>
    intro i cur _ _ _
    have hnil : extrGo i cur [] = [] := by cases cur <;> rfl
    constructor
    · intro r hr
      rw [hnil] at hr
      cases hr
    · rw [hnil]
      exact List.Pairwise.nil
  | cons line rest ih =>
    intro i cur hi hcur hnl
    have hnlline : '\n' ∉ line := hnl line (by simp)
    have hnlrest : ∀ l ∈ rest, '\n' ∉ l := fun l hl => hnl l (by simp [hl])
    cases cur with
    | none =>
      cases hm : matchFunc line with
      | some name =>
        have heq : extrGo i none (line :: rest) =
            extrGo (i + 1) (some ⟨name, i, [line], braceDelta line⟩) rest := by
          simp only [extrGo, hm]
        obtain ⟨hf, hp⟩ := ih (i + 1) (some ⟨name, i, [line], braceDelta line⟩)
          (by omega)
          (by
            rintro c hc
            injection hc with hc
            subst hc
            exact ⟨by simp, hi, by simp, by simpa using hnlline⟩)
          hnlrest
        constructor
        · intro r hr
          rw [heq] at hr
          obtain ⟨h100, hb, hse, hend⟩ := hf r hr
          simp only [curBound] at hb ⊢
          refine ⟨h100, hb, hse, ?_⟩
          simp only [List.length_cons]
          omega
        · rw [heq]; exact hp
      | none =>
        have heq : extrGo i none (line :: rest) = extrGo (i + 1) none rest := by
          simp only [extrGo, hm]
        obtain ⟨hf, hp⟩ := ih (i + 1) none (by omega) (by rintro c hc; cases hc) hnlrest
        constructor
        · intro r hr
          rw [heq] at hr
          obtain ⟨h100, hb, hse, hend⟩ := hf r hr
          simp only [curBound] at hb ⊢
          refine ⟨h100, by omega, hse, ?_⟩
          simp only [List.length_cons]
          omega
        · rw [heq]; exact hp
    | some c =>
      obtain ⟨hlen, hstart, hlne, hlnl⟩ := hcur c rfl
      have hnl2 : ∀ l ∈ c.lines ++ [line], '\n' ∉ l := by
        intro l hl
        rcases List.mem_append.mp hl with h | h
        · exact hlnl l h
        · simp only [List.mem_singleton] at h; subst h; exact hnlline
      have hjoin : (splitLines (joinLines (c.lines ++ [line]))).length =
          c.lines.length + 1 := by
        rw [joinLines_split _ (by simp) hnl2]; simp
      by_cases h0 : c.count + braceDelta line = 0
      · have heq : extrGo i (some c) (line :: rest) =
            (if 100 < (joinLines (c.lines ++ [line])).length
             then [(c.name, (joinLines (c.lines ++ [line]), c.start))] else []) ++
              extrGo (i + 1) none rest := by
          simp only [extrGo]
          rw [if_pos h0]
        obtain ⟨hf, hp⟩ := ih (i + 1) none (by omega) (by rintro c' hc'; cases hc') hnlrest
        have hend0 : endLine (c.name, (joinLines (c.lines ++ [line]), c.start)) = i := by
          simp only [endLine, hjoin]
          omega
        by_cases hsz : 100 < (joinLines (c.lines ++ [line])).length
        · rw [if_pos hsz] at heq
          constructor
          · intro r hr
            rw [heq] at hr
            simp only [List.singleton_append, List.mem_cons] at hr
            rcases hr with h | h
            · subst h
              refine ⟨hsz, ?_, ?_, ?_⟩
              · simp [curBound]
              · rw [hend0]; show c.start ≤ i; omega
              · rw [hend0]; simp only [List.length_cons]; omega
            · obtain ⟨h100, hb, hse, hend⟩ := hf r h
              simp only [curBound] at hb ⊢
              refine ⟨h100, by omega, hse, ?_⟩
              simp only [List.length_cons]
              omega
          · rw [heq]
            simp only [List.singleton_append]
            refine List.pairwise_cons.mpr ⟨?_, hp⟩
            intro r hr
            obtain ⟨_, hb, _, _⟩ := hf r hr
            simp only [curBound] at hb
            rw [hend0]; omega
        · rw [if_neg hsz] at heq
          simp only [List.nil_append] at heq
          constructor
          · intro r hr
            rw [heq] at hr
            obtain ⟨h100, hb, hse, hend⟩ := hf r hr
            simp only [curBound] at hb ⊢
            refine ⟨h100, by omega, hse, ?_⟩
            simp only [List.length_cons]
            omega
          · rw [heq]; exact hp
      · have heq : extrGo i (some c) (line :: rest) =
            extrGo (i + 1)
              (some ⟨c.name, c.start, c.lines ++ [line], c.count + braceDelta line⟩)
              rest := by
          simp only [extrGo]
          rw [if_neg h0]
        obtain ⟨hf, hp⟩ := ih (i + 1)
          (some ⟨c.name, c.start, c.lines ++ [line], c.count + braceDelta line⟩)
          (by omega)
          (by
            rintro c' hc'
            injection hc' with hc'
            subst hc'
            refine ⟨?_, hstart, by simp, hnl2⟩
            simp only [List.length_append, List.length_singleton]
            omega)
          hnlrest
        constructor
        · intro r hr
          rw [heq] at hr
          obtain ⟨h100, hb, hse, hend⟩ := hf r hr
          simp only [curBound] at hb ⊢
          refine ⟨h100, hb, hse, ?_⟩
          simp only [List.length_cons]
          omega
        · rw [heq]; exact hp

/-! ### Python-dict (assoc list) lemmas -/

theorem dictInsert_mem {k : List Char} {v : List Char × Nat} :
    ∀ {d : List (List Char × (List Char × Nat))} {e},
      e ∈ dictInsert k v d → e = (k, v) ∨ e ∈ d := by
  intro d
  induction d with
  | nil =>
    intro e he
    simp only [dictInsert, List.mem_singleton] at he
    left; exact he
  | cons kv rest ih =>
    intro e he
    obtain ⟨k', v'⟩ := kv
    by_cases hk : k' = k
    · rw [show dictInsert k v ((k', v') :: rest) = (k, v) :: rest from by
        simp only [dictInsert, if_pos hk]] at he
      rcases List.mem_cons.mp he with h | h
      · left; exact h
      · right; exact List.mem_cons_of_mem _ h
    · rw [show dictInsert k v ((k', v') :: rest) = (k', v') :: dictInsert k v rest from by
        simp only [dictInsert, if_neg hk]] at he
      rcases List.mem_cons.mp he with h | h
      · right; rw [h]; exact List.mem_cons_self _ _
      · rcases ih h with h1 | h1
        · left; exact h1
        · right; exact List.mem_cons_of_mem _ h1

theorem dictInsert_keys_mem {k : List Char} {v : List Char × Nat} :
    ∀ {d : List (List Char × (List Char × Nat))} {x},
      x ∈ (dictInsert k v d).map Prod.fst → x = k ∨ x ∈ d.map Prod.fst := by
  intro d x hx
  obtain ⟨e, he, hex⟩ := List.mem_map.mp hx
  rcases dictInsert_mem he with h | h
  · left; rw [← hex, h]
  · right; exact hex ▸ List.mem_map_of_mem Prod.fst h

theorem dictInsert_keys_nodup {k : List Char} {v : List Char × Nat} :
    ∀ {d : List (List Char × (List Char × Nat))},
      (d.map Prod.fst).Nodup → ((dictInsert k v d).map Prod.fst).Nodup := by
  intro d
  induction d with
  | nil => intro _; simp [dictInsert]
  | cons kv rest ih =>
    intro h
    obtain ⟨k', v'⟩ := kv
    simp only [List.map_cons, List.nodup_cons] at h
    by_cases hk : k' = k
    · rw [show dictInsert k v ((k', v') :: rest) = (k, v) :: rest from by
        simp only [dictInsert, if_pos hk]]
      simp only [List.map_cons, List.nodup_cons]
      exact ⟨hk ▸ h.1, h.2⟩
    · rw [show dictInsert k v ((k', v') :: rest) = (k', v') :: dictInsert k v rest from by
        simp only [dictInsert, if_neg hk]]
      simp only [List.map_cons, List.nodup_cons]
      refine ⟨?_, ih h.2⟩
      intro hmem
      rcases dictInsert_keys_mem hmem with h1 | h1
      · exact hk h1
      · exact h.1 h1

theorem dict_foldl_mem : ∀ (raw acc : List (List Char × (List Char × Nat))) (e),
    e ∈ raw.foldl (fun d r => dictInsert r.1 r.2 d) acc → e ∈ acc ∨ e ∈ raw := by
  intro raw
  induction raw with
  | nil =>
    intro acc e he
    left
    simpa using he
  | cons r raw' ih =>
    intro acc e he
    rw [List.foldl_cons] at he
    rcases ih _ e he with h | h
    · rcases dictInsert_mem h with h1 | h1
      · right; rw [show e = r from h1]; exact List.mem_cons_self _ _
      · left; exact h1
    · right; exact List.mem_cons_of_mem _ h

theorem dict_foldl_keys_nodup : ∀ (raw acc : List (List Char × (List Char × Nat))),
    (acc.map Prod.fst).Nodup →
    ((raw.foldl (fun d r => dictInsert r.1 r.2 d) acc).map Prod.fst).Nodup := by
  intro raw
  induction raw with
  | nil => intro acc h; simpa using h
  | cons r raw' ih =>
    intro acc h
    rw [List.foldl_cons]
    exact ih _ (dictInsert_keys_nodup h)

theorem dictInsert_notmem {k : List Char} {v : List Char × Nat} :
    ∀ {d : List (List Char × (List Char × Nat))},
      (∀ e ∈ d, e.1 ≠ k) → dictInsert k v d = d ++ [(k, v)] := by
  intro d
  induction d with
  | nil => intro _; rfl
  | cons kv rest ih =>
    intro h
    obtain ⟨k', v'⟩ := kv
    have hk : k' ≠ k := h (k', v') (List.mem_cons_self _ _)
    simp only [dictInsert, if_neg hk, List.cons_append]
    rw [ih (fun e he => h e (List.mem_cons_of_mem _ he))]

theorem dict_foldl_eq : ∀ (raw acc : List (List Char × (List Char × Nat))),
    ((acc ++ raw).map Prod.fst).Nodup →
    raw.foldl (fun d r => dictInsert r.1 r.2 d) acc = acc ++ raw := by
  intro raw
  induction raw with
  | nil => intro acc _; simp
  | cons r raw' ih =>
    intro acc h
    rw [List.foldl_cons]
    have hnotin : ∀ e ∈ acc, e.1 ≠ r.1 := by
      intro e he heq
      rw [List.map_append] at h
      have hdisj := (List.nodup_append.mp h).2.2
      exact hdisj (List.mem_map_of_mem Prod.fst he)
        (by rw [heq]; simp)
    rw [dictInsert_notmem hnotin]
    rw [ih (acc ++ [r]) (by rw [List.append_assoc]; simpa using h)]
    simp

/-- Properties of the value returned by `extract_functions`: every span is
over the 100-character threshold with `1 ≤ start ≤ end`; spans are
pairwise non-overlapping; and, when no function name repeats among the
recorded spans, the returned sequence is strictly increasing by line
range. -/
theorem extract_functions_props (content : List Char) :
    (∀ r ∈ extract_functions content,
        100 < r.2.1.length ∧ 1 ≤ r.2.2 ∧ r.2.2 ≤ endLine r) ∧
    List.Pairwise (fun a b => endLine a < b.2.2 ∨ endLine b < a.2.2)
      (extract_functions content) ∧
    (((extrGo 1 none (splitLines content)).map Prod.fst).Nodup →
      List.Pairwise (fun a b => endLine a < b.2.2) (extract_functions content)) := by
  obtain ⟨hf, hp⟩ := extrGo_facts (splitLines content) 1 none le_rfl
    (by rintro c hc; cases hc) (splitLines_no_nl content)
  have hmem : ∀ e ∈ extract_functions content, e ∈ extrGo 1 none (splitLines content) := by
    intro e he
    rcases dict_foldl_mem _ [] e he with h | h
    · cases h
    · exact h
  refine ⟨?_, ?_, ?_⟩
  · intro r hr
    obtain ⟨h100, hb, hse, _⟩ := hf r (hmem r hr)
    simp only [curBound] at hb
    exact ⟨h100, hb, hse⟩
  · have hnodup : ((extract_functions content).map Prod.fst).Nodup :=
      dict_foldl_keys_nodup _ [] (by simp)
    have hp2 : List.Pairwise (fun a b => endLine a < b.2.2 ∨ endLine b < a.2.2)
        (extrGo 1 none (splitLines content)) := hp.imp (fun h => Or.inl h)
    have hsym : Symmetric (fun a b : List Char × (List Char × Nat) =>
        endLine a < b.2.2 ∨ endLine b < a.2.2) := fun _ _ h => h.symm
    have hpne : List.Pairwise (fun a b : List Char × (List Char × Nat) => a ≠ b)
        (extract_functions content) := by
      have h2 := List.pairwise_map.mp hnodup
      exact h2.imp (fun h he => h (by rw [he]))
    exact hpne.imp_of_mem (fun ha hb hne =>
      hp2.forall hsym (hmem _ ha) (hmem _ hb) hne)
  · intro hnames
    have heq : extract_functions content = extrGo 1 none (splitLines content) :=
      dict_foldl_eq _ [] (by simpa using hnames)
    rw [heq]
    exact hp

/-! ## Cross-boundary duplicate classification (claim C3)

`find_duplicate_functions` (agent_duplication.py 118-131): for each group
of locations sharing a digest, an issue is emitted iff the group has more
than one member and both `[loc for loc in locations if 'vst/' in loc[0]]`
and `[loc for loc in locations if 'src/' in loc[0]]` are non-empty.
Locations come from two scans: `self.vst_dir.glob("*.cpp")` produces
relative paths `vst/source/<name>` (names without a slash), and
`self.src_dir.rglob(...)` produces relative paths `src/<relpath>`. -/

/-- Does `s` start with `sub` (first argument is the pattern, so that the
recursion is structural on the pattern and reduces when the subject has a
free tail)? -/
def subAt : List Char → List Char → Bool
  | [], _ => true
  | _ :: _, [] => false
  | d :: sub, c :: s => c == d && subAt sub s

/-- Python `sub in s`: contiguous-substring test. -/
def listStartsWith (s sub : List Char) : Bool := subAt sub s

def containsSub : List Char → List Char → Bool
  | [], sub => sub.isEmpty
  | c :: s, sub => listStartsWith (c :: s) sub || containsSub s sub

/-- One member of a digest group as the classification code sees it:
`(relative path, function name, line)`. -/
structure DupLoc where
  path : String
  func : String
  line : Nat
deriving DecidableEq

/-- The emission decision of `find_duplicate_functions` for one digest
group. -/
def crossBoundaryEmitted (locations : List DupLoc) : Bool :=
  decide (1 < locations.length) &&
    !(locations.filter (fun loc => containsSub loc.path.data "vst/".data)).isEmpty &&
    !(locations.filter (fun loc => containsSub loc.path.data "src/".data)).isEmpty

/-- Which scan produced a member: the VST tree (`vst/source` glob) or the
standalone tree (`src` rglob).  This is the claim's "root identifier". -/
inductive ScanRoot
  | vst
  | standalone
deriving DecidableEq

structure ScanLoc where
  root : ScanRoot
  rel : String
  func : String
  line : Nat
deriving DecidableEq

/-- `str(cpp_file.relative_to(self.project_root))` for a scanned file. -/
def scanPath (loc : ScanLoc) : String :=
  match loc.root with
  | .vst => "vst/source/" ++ loc.rel
  | .standalone => "src/" ++ loc.rel

def toDupLoc (loc : ScanLoc) : DupLoc := ⟨scanPath loc, loc.func, loc.line⟩

/-- "The set of root identifiers among the members has size ≥ 2": with two
possible roots, both occur. -/
def rootsAtLeastTwo (locs : List ScanLoc) : Prop :=
  (∃ l ∈ locs, l.root = ScanRoot.vst) ∧ (∃ l ∈ locs, l.root = ScanRoot.standalone)

instance (locs : List ScanLoc) : Decidable (rootsAtLeastTwo locs) := by
  unfold rootsAtLeastTwo; infer_instance

theorem vst_data : "vst/".data = ['v', 's', 't', '/'] := by decide

theorem src_data : "src/".data = ['s', 'r', 'c', '/'] := by decide

theorem vstPath_has_vst (rel : List Char) :
    containsSub ('v' :: 's' :: 't' :: '/' :: rel) ['v', 's', 't', '/'] = true := rfl

theorem srcPath_has_src (rel : List Char) :
    containsSub ('s' :: 'r' :: 'c' :: '/' :: rel) ['s', 'r', 'c', '/'] = true := rfl

theorem srcPath_vst (rel : List Char) :
    containsSub ('s' :: 'r' :: 'c' :: '/' :: rel) ['v', 's', 't', '/'] =
      containsSub rel ['v', 's', 't', '/'] := rfl

theorem vstPath_src (rel : List Char) :
    containsSub ('v' :: 's' :: 't' :: '/' :: 's' :: 'o' :: 'u' :: 'r' :: 'c' :: 'e' :: '/' :: rel)
      ['s', 'r', 'c', '/'] = containsSub rel ['s', 'r', 'c', '/'] := rfl

theorem data_append (s t : String) : (s ++ t).data = s.data ++ t.data := rfl

theorem vstsource_data :
    "vst/source/".data =
      'v' :: 's' :: 't' :: '/' :: 's' :: 'o' :: 'u' :: 'r' :: 'c' :: 'e' :: '/' :: [] := by
  decide

theorem srcpre_data : "src/".data = 's' :: 'r' :: 'c' :: '/' :: [] := by decide

/-- For scan-produced paths, the `'vst/' in path` test recognises exactly
the VST-tree members, provided no standalone relative path contains the
substring `vst/`. -/
theorem scanPath_vst_test {locs : List ScanLoc}
    (hs : ∀ l ∈ locs, l.root = ScanRoot.standalone →
      containsSub l.rel.data ['v', 's', 't', '/'] = false) :
    ∀ l ∈ locs, containsSub (toDupLoc l).path.data ['v', 's', 't', '/'] =
      (l.root == ScanRoot.vst) := by
  intro l hl
  cases hroot : l.root with
  | vst =>
    show containsSub (scanPath l).data _ = _
    rw [show scanPath l = "vst/source/" ++ l.rel from by rw [scanPath, hroot]]
    rw [data_append, vstsource_data]
    rw [show ('v' :: 's' :: 't' :: '/' :: 's' :: 'o' :: 'u' :: 'r' :: 'c' :: 'e' :: '/' :: []) ++
        l.rel.data =
        'v' :: 's' :: 't' :: '/' :: 's' :: 'o' :: 'u' :: 'r' :: 'c' :: 'e' :: '/' :: l.rel.data
      from rfl]
    rw [vstPath_has_vst]
    rfl
  | standalone =>
    show containsSub (scanPath l).data _ = _
    rw [show scanPath l = "src/" ++ l.rel from by rw [scanPath, hroot]]
    rw [data_append, srcpre_data]
    rw [show ('s' :: 'r' :: 'c' :: '/' :: []) ++ l.rel.data =
        's' :: 'r' :: 'c' :: '/' :: l.rel.data from rfl]
    rw [srcPath_vst, hs l hl hroot]
    rfl

/-- For scan-produced paths, the `'src/' in path` test recognises exactly
the standalone-tree members, provided no VST file name contains the
substring `src/`. -/
theorem scanPath_src_test {locs : List ScanLoc}
    (hv : ∀ l ∈ locs, l.root = ScanRoot.vst →
      containsSub l.rel.data ['s', 'r', 'c', '/'] = false) :
    ∀ l ∈ locs, containsSub (toDupLoc l).path.data ['s', 'r', 'c', '/'] =
      (l.root == ScanRoot.standalone) := by
  intro l hl
  cases hroot : l.root with
  | vst =>
    show containsSub (scanPath l).data _ = _
    rw [show scanPath l = "vst/source/" ++ l.rel from by rw [scanPath, hroot]]
    rw [data_append, vstsource_data]
    rw [show ('v' :: 's' :: 't' :: '/' :: 's' :: 'o' :: 'u' :: 'r' :: 'c' :: 'e' :: '/' :: []) ++
        l.rel.data =
        'v' :: 's' :: 't' :: '/' :: 's' :: 'o' :: 'u' :: 'r' :: 'c' :: 'e' :: '/' :: l.rel.data
      from rfl]
    rw [vstPath_src, hv l hl hroot]
    rfl
  | standalone =>
    show containsSub (scanPath l).data _ = _
    rw [show scanPath l = "src/" ++ l.rel from by rw [scanPath, hroot]]
    rw [data_append, srcpre_data]
    rw [show ('s' :: 'r' :: 'c' :: '/' :: []) ++ l.rel.data =
        's' :: 'r' :: 'c' :: '/' :: l.rel.data from rfl]
    rw [srcPath_has_src]
    rfl

/-- The filter over a root-marker test is non-empty exactly when a member
of the corresponding root is present. -/
theorem filter_root_nonempty {locs : List ScanLoc} {pat : List Char} {rt : ScanRoot}
    (htest : ∀ l ∈ locs, containsSub (toDupLoc l).path.data pat = (l.root == rt)) :
    (!((locs.map toDupLoc).filter
        (fun loc => containsSub loc.path.data pat)).isEmpty) = true ↔
      ∃ l ∈ locs, l.root = rt := by
  constructor
  · intro h
    cases hx : (locs.map toDupLoc).filter (fun loc => containsSub loc.path.data pat) with
    | nil => rw [hx] at h; simp at h
    | cons y ys =>
      have hy : y ∈ (locs.map toDupLoc).filter (fun loc => containsSub loc.path.data pat) := by
        rw [hx]; exact List.mem_cons_self _ _
      obtain ⟨hmem, hpred⟩ := List.mem_filter.mp hy
      obtain ⟨l, hl, hly⟩ := List.mem_map.mp hmem
      refine ⟨l, hl, ?_⟩
      have := htest l hl
      rw [hly, hpred] at this
      exact beq_iff_eq.mp this.symm
  · rintro ⟨l, hl, hroot⟩
    have hpred : containsSub (toDupLoc l).path.data pat = true := by
      rw [htest l hl, hroot]
      simp
    have hmem : toDupLoc l ∈
        (locs.map toDupLoc).filter (fun loc => containsSub loc.path.data pat) :=
      List.mem_filter.mpr ⟨List.mem_map_of_mem toDupLoc hl, hpred⟩
    cases hx : (locs.map toDupLoc).filter (fun loc => containsSub loc.path.data pat) with
    | nil => rw [hx] at hmem; cases hmem
    | cons y ys => simp

/-! ## Quality scoring (claim C5)

`CodeMetricsAgent.generate_report` (agent_metrics.py 281-303): the score
starts at 100 and fixed deductions apply for `avg_ccn > 10` (−20), more
than 5 high-complexity functions (−15), `avg_comment_ratio < 0.1` (−10)
`elif > 0.5` (−5).  The float metrics are embedded as rationals. -/

/-- The ordered deduction amounts applied by the Quality Assessment. -/
def qualityDeductions (avg_ccn : ℚ) (numComplex : ℕ) (commentRatio : ℚ) : List ℤ :=
  (if 10 < avg_ccn then [20] else []) ++
    (if 5 < numComplex then [15] else []) ++
      (if commentRatio < 1 / 10 then [10]
       else if 1 / 2 < commentRatio then [5] else [])

/-- The reported quality score. -/
def qualityScore (avg_ccn : ℚ) (numComplex : ℕ) (commentRatio : ℚ) : ℤ :=
  100 - (qualityDeductions avg_ccn numComplex commentRatio).sum

theorem qualityDeductions_sum_eq (a : ℚ) (n : ℕ) (r : ℚ) :
    (qualityDeductions a n r).sum =
      (if 10 < a then 20 else 0) + (if 5 < n then 15 else 0) +
        (if r < 1 / 10 then 10 else if 1 / 2 < r then 5 else 0) := by
  unfold qualityDeductions
  split_ifs <;> simp

theorem qualityScore_range (a : ℚ) (n : ℕ) (r : ℚ) :
    0 ≤ qualityScore a n r ∧ qualityScore a n r ≤ 100 := by
  rw [qualityScore, qualityDeductions_sum_eq]
  split_ifs <;> omega

theorem qualityScore_sum (a : ℚ) (n : ℕ) (r : ℚ) :
    (qualityDeductions a n r).sum = 100 - qualityScore a n r := by
  rw [qualityScore]
  omega

theorem qualityScore_mono {a a' : ℚ} {n n' : ℕ} {r r' : ℚ}
    (h1 : 10 < a → 10 < a') (h2 : 5 < n → 5 < n')
    (h3 : r < 1 / 10 → r' < 1 / 10) (h4 : 1 / 2 < r → 1 / 2 < r') :
    qualityScore a' n' r' ≤ qualityScore a n r := by
  rw [qualityScore, qualityScore, qualityDeductions_sum_eq, qualityDeductions_sum_eq]
  split_ifs <;> first
    | omega
    | exact absurd (h1 (by assumption)) (by assumption)
    | exact absurd (h2 (by assumption)) (by assumption)
    | exact absurd (h3 (by assumption)) (by assumption)
    | exact absurd (h4 (by assumption)) (by assumption)

/-! ## The orchestrator (claims C6, C7, C9)

`run_code_review.py`: `run_all_agents` executes the registered agents in
list order inside a per-agent `try`; the collection of `agent.issues` into
`self.all_issues[severity]` happens inside the same `try`, after
`agent.run()` returns — so an exception anywhere in `run()` skips the
whole collection step for that agent and the loop moves on to the next
agent. -/

/-- A finding, as the agents build them in `self.issues`. -/
structure Issue where
  severity : String
  category : String
  file : String
  line : Nat
  message : String
deriving DecidableEq

/-- One registered agent as the orchestrator observes it: its name, the
issues accumulated in `agent.issues` by the time `run()` finishes or
raises, and whether `run()` raised. -/
structure AgentRun where
  name : String
  issues : List Issue
  raises : Bool
deriving DecidableEq

/-- `CodeReviewOrchestrator.run_all_agents` (run_code_review.py 49-70):
the collected `(agent, issue)` pairs, in execution order; a raising
agent contributes nothing (its issues are never read). -/
def run_all_agents (agents : List AgentRun) : List (String × Issue) :=
  agents.flatMap fun a =>
    if a.raises then [] else a.issues.map (fun i => (a.name, i))

/-- The issues of one severity bucket (`self.all_issues[sev]`), in
collection order. -/
def severityBucket (sev : String) (agents : List AgentRun) : List (String × Issue) :=
  (run_all_agents agents).filter (fun p => p.2.severity == sev)

/-- The CRITICAL ISSUES section of `generate_consolidated_report`
(run_code_review.py 108-116): the ERROR bucket rendered in collection
order — no sort is applied anywhere. -/
def renderErrorSection (errors : List (String × Issue)) : List String :=
  errors.flatMap fun item =>
    ["  [" ++ item.1 ++ "] " ++ item.2.category,
     "  Location: " ++ item.2.file ++ ":" ++ toString item.2.line,
     "  Message: " ++ item.2.message,
     ""]

/-- The sort key the spec prescribes for rendering. -/
def issueKey (i : Issue) : String × String × Nat := (i.category, i.file, i.line)

/-- `main` (run_code_review.py 279-304): runs the orchestrator, saves the
reports, prints the summary, and returns 0 unconditionally
(`sys.exit(main())`). -/
def pyMain (agents : List AgentRun) : List (String × Issue) × Nat :=
  (run_all_agents agents, 0)

theorem run_all_agents_append (xs ys : List AgentRun) :
    run_all_agents (xs ++ ys) = run_all_agents xs ++ run_all_agents ys := by
  unfold run_all_agents
  rw [List.flatMap_append]

theorem renderErrorSection_append (xs ys : List (String × Issue)) :
    renderErrorSection (xs ++ ys) = renderErrorSection xs ++ renderErrorSection ys := by
  unfold renderErrorSection
  rw [List.flatMap_append]

/-! ## Realtime-safety scan (claim C8)

`ArchitectureReviewAgent.check_rt_audio_safety` (agent_architecture.py
130-170): the body of `processBlock` is extracted with the regex
`void\s+Sp3ctraAudioProcessor::processBlock\s*\([^)]+\)\s*{(.*?)\n}`
(DOTALL); each line of the captured body is tested against seven unsafe
patterns; every hit on a non-`//` line yields an ERROR Issue in category
`RT-Audio Safety` whose line number is the 1-based index inside the
captured body. -/

/-- A `\b`-anchored literal search with a continuation test on the text
after the literal: `reSearch lit cont s` is
`re.search(r'\b<lit>...', s)` where `cont` checks the pattern tail.  The
scan carries whether the previous character was a word character. -/
def scanBdry (lit : List Char) (cont : List Char → Bool) : Bool → List Char → Bool
  | _, [] => false
  | prevWord, c :: rest =>
    (!prevWord && listStartsWith (c :: rest) lit && cont ((c :: rest).drop lit.length)) ||
      scanBdry lit cont (isWordC c) rest

def reSearch (lit : List Char) (cont : List Char → Bool) (s : List Char) : Bool :=
  scanBdry lit cont false s

/-- Pattern tail `\s*\(`. -/
def afterWsParen (l : List Char) : Bool :=
  match l.dropWhile isPyWs with
  | '(' :: _ => true
  | _ => false

/-- Pattern tail `\s+\w+`. -/
def afterWsPlusWord (l : List Char) : Bool :=
  match l with
  | c :: rest =>
    isPyWs c &&
      (match rest.dropWhile isPyWs with
       | d :: _ => isWordC d
       | [] => false)
  | [] => false

/-- Pattern tail `\s+`. -/
def afterWsPlus (l : List Char) : Bool :=
  match l with
  | c :: _ => isPyWs c
  | [] => false

def rtMalloc (l : List Char) : Bool := reSearch "malloc".data afterWsParen l

def rtNew (l : List Char) : Bool := reSearch "new".data afterWsPlusWord l

def rtDelete (l : List Char) : Bool := reSearch "delete".data afterWsPlus l

def rtMutex (l : List Char) : Bool := reSearch "std::mutex".data (fun _ => true) l

def rtPrintf (l : List Char) : Bool := reSearch "printf".data afterWsParen l

def rtLogger (l : List Char) : Bool := reSearch "juce::Logger".data (fun _ => true) l

def rtCout (l : List Char) : Bool := reSearch "std::cout".data (fun _ => true) l

/-- The `unsafe_patterns` table, in source order. -/
def rtUnsafePatterns : List ((List Char → Bool) × String) :=
  [(rtMalloc, "malloc() call (RT-unsafe)"),
   (rtNew, "new operator (RT-unsafe)"),
   (rtDelete, "delete operator (RT-unsafe)"),
   (rtMutex, "Mutex lock (RT-unsafe if blocking)"),
   (rtPrintf, "printf() call (RT-unsafe)"),
   (rtLogger, "Logger call (RT-unsafe, use in non-RT thread only)"),
   (rtCout, "std::cout (RT-unsafe)")]

/-- `line.strip().startswith('//')`. -/
def isCommentLine (line : List Char) : Bool :=
  listStartsWith (pyStrip line) ('/' :: '/' :: [])

def processorFile : String := "vst/source/PluginProcessor.cpp"

/-- One line of the body against the seven patterns (inner loop of
agent_architecture.py 161-170). -/
def rtScanLine (i : Nat) (line : List Char) : List Issue :=
  if isCommentLine line then []
  else
    (rtUnsafePatterns.filter (fun p => p.1 line)).map fun p =>
      ⟨"ERROR", "RT-Audio Safety", processorFile, i,
        p.2 ++ " in processBlock: " ++ String.mk (pyStrip line)⟩

def rtScanGo (i : Nat) : List (List Char) → List Issue
  | [] => []
  | line :: rest => rtScanLine i line ++ rtScanGo (i + 1) rest

/-- Try the `processBlock` signature regex anchored at the current
position; on success return the text just after the opening `{`.  Every
greedy quantifier in the pattern is followed by a literal its class
excludes, so the parse is deterministic. -/
def pbTryAt (s : List Char) : Option (List Char) :=
  if listStartsWith s "void".data then
    let r1 := s.drop 4
    let r2 := r1.dropWhile isPyWs
    if r2.length = r1.length then none
    else if listStartsWith r2 "Sp3ctraAudioProcessor::processBlock".data then
      match (r2.drop 35).dropWhile isPyWs with
      | '(' :: r4 =>
        (match r4.dropWhile (fun d => !(d == ')')) with
         | ')' :: r6 =>
           if r4.length = (r4.dropWhile (fun d => !(d == ')'))).length then none
           else
             (match r6.dropWhile isPyWs with
              | '{' :: r7 => some r7
              | _ => none)
         | _ => none)
      | _ => none
    else none
  else none

/-- The lazy capture `(.*?)\n}`: text before the first `\n}`. -/
def findNlBrace : List Char → Option (List Char)
  | [] => none
  | '\n' :: '}' :: _ => some []
  | c :: rest => (findNlBrace rest).map (fun t => c :: t)

/-- `re.search` over the file: leftmost match wins; a position where the
signature matches but no `\n}` follows fails and the scan continues. -/
def pbSearch : List Char → Option (List Char)
  | [] => none
  | c :: rest =>
    match pbTryAt (c :: rest) with
    | some r7 =>
      (match findNlBrace r7 with
       | some body => some body
       | none => pbSearch rest)
    | none => pbSearch rest

/-- `ArchitectureReviewAgent.check_rt_audio_safety`, as a function of the
`PluginProcessor.cpp` content. -/
def check_rt_audio_safety (content : List Char) : List Issue :=
  match pbSearch content with
  | none => []
  | some body => rtScanGo 1 (splitLines body)

/-! ## Recommendations (claim C8)

`CodeReviewOrchestrator._generate_recommendations` (run_code_review.py
155-214). -/

def recRT : String :=
  "CRITICAL: Fix RT-audio safety violations in processBlock(). Remove any malloc/new/logging/mutex operations from the audio callback."

def recArch : String :=
  "Review architectural separation of concerns. Ensure PluginProcessor, Sp3ctraCore, and UI components have clear responsibilities."

def recDup : String :=
  "Refactor duplicated code into shared libraries. This will improve maintainability and reduce the risk of divergent implementations."

def recAI : String :=
  "Clean up AI-generated code artifacts (excessive comments, placeholders, dead code). This will improve code readability and maintainability."

def recUI : String :=
  "Standardize UI components (colors, fonts, layouts). Create a theme/style guide to ensure consistent user experience."

def recConfig : String :=
  "Ensure all VST configuration uses APVTS for DAW integration. Avoid .ini file dependencies in plugin code."

def recInst : String :=
  "Verify that multiple VST instances can coexist without conflicts. Eliminate global state and singleton patterns."

def recPositive : String :=
  "Code quality looks good! Continue maintaining best practices."

def strContains (s sub : String) : Bool := containsSub s.data sub.data

/-- `_generate_recommendations` over the ERROR- and WARNING-category
sets. -/
def generate_recommendations (errorCats warnCats : List String) : List String :=
  let recs :=
    (if errorCats.any (fun c => strContains c "RT-Audio Safety") then [recRT] else []) ++
      (if warnCats.any (fun c => strContains c "Architecture") then [recArch] else []) ++
        (if warnCats.any (fun c => strContains c "Duplication") then [recDup] else []) ++
          (if warnCats.any (fun c => strContains c "AI Bias") then [recAI] else []) ++
            (if warnCats.any (fun c => strContains c "UI") then [recUI] else []) ++
              (if warnCats.any (fun c => strContains c "Config") then [recConfig] else []) ++
                (if warnCats.any (fun c => strContains c "Instance Isolation")
                 then [recInst] else [])
  if recs.isEmpty then [recPositive] else recs

example : pbSearch "void Sp3ctraAudioProcessor::processBlock(juce::AudioBuffer& b)\n\x7b\n  std::mutex m;\n  x = 1;\n\x7d\n".data =
    some "\n  std::mutex m;\n  x = 1;".data := by decide

example : pbSearch "void Sp3ctraAudioProcessor::processBlock() \x7b\n\x7d\n".data = none := by
  decide

example : pbSearch "int q;\nvoid Sp3ctraAudioProcessor::processBlock(int a)\x7b y;\n  z;\n\x7d\nrest".data =
    some " y;\n  z;".data := by decide

example : rtMutex "  std::mutex m;".data = true := by decide

example : rtMutex "  // std::mutex m;".data = true := by decide

example : isCommentLine "  // std::mutex m;".data = true := by decide

/-- A line that triggers none of the seven patterns (or is a comment
line) contributes no issue. -/
def rtBenign (line : List Char) : Prop :=
  isCommentLine line = true ∨ ∀ p ∈ rtUnsafePatterns, p.1 line = false

instance (line : List Char) : Decidable (rtBenign line) := by
  unfold rtBenign
  infer_instance

theorem rtScanLine_benign {line : List Char} (h : rtBenign line) (i : Nat) :
    rtScanLine i line = [] := by
  rcases h with h | h
  · simp [rtScanLine, h]
  · rw [rtScanLine]
    split
    · rfl
    · rw [List.filter_eq_nil_iff.mpr (fun p hp => by rw [h p hp]; simp)]
      rfl

theorem rtScanGo_append (xs ys : List (List Char)) :
    ∀ i, rtScanGo i (xs ++ ys) = rtScanGo i xs ++ rtScanGo (i + xs.length) ys := by
  induction xs with
  | nil => intro i; simp [rtScanGo]
  | cons line rest ih =>
    intro i
    rw [List.cons_append]
    simp only [rtScanGo]
    rw [ih (i + 1), List.append_assoc]
    simp only [List.length_cons]
    rw [show i + 1 + rest.length = i + (rest.length + 1) by omega]

theorem rtScanGo_benign {xs : List (List Char)} (h : ∀ l ∈ xs, rtBenign l) :
    ∀ i, rtScanGo i xs = [] := by
  induction xs with
  | nil => intro i; rfl
  | cons line rest ih =>
    intro i
    simp only [rtScanGo]
    rw [rtScanLine_benign (h line (by simp)) i,
      ih (fun l hl => h l (by simp [hl])) (i + 1)]
    rfl

/-- A non-comment line on which only the `std::mutex` pattern fires
yields exactly the one blocking-lock ERROR. -/
theorem rtScanLine_mutex {line : List Char}
    (hc : isCommentLine line = false)
    (hmu : rtMutex line = true)
    (hma : rtMalloc line = false) (hne : rtNew line = false)
    (hde : rtDelete line = false) (hpr : rtPrintf line = false)
    (hlo : rtLogger line = false) (hco : rtCout line = false) (i : Nat) :
    rtScanLine i line =
      [⟨"ERROR", "RT-Audio Safety", processorFile, i,
        "Mutex lock (RT-unsafe if blocking)" ++ " in processBlock: " ++
          String.mk (pyStrip line)⟩] := by
  rw [rtScanLine, if_neg (by rw [hc]; simp)]
  rw [show rtUnsafePatterns.filter (fun p => p.1 line) =
      [(rtMutex, "Mutex lock (RT-unsafe if blocking)")] from by
    simp [rtUnsafePatterns, List.filter, hmu, hma, hne, hde, hpr, hlo, hco]]
  rfl

theorem generate_recommendations_rt_first {errorCats warnCats : List String}
    (h : errorCats.any (fun c => strContains c "RT-Audio Safety") = true) :
    ∃ t, generate_recommendations errorCats warnCats = recRT :: t := by
  unfold generate_recommendations
  rw [if_pos h]
  simp only [List.cons_append]
  rw [if_neg (by simp)]
  exact ⟨_, rfl⟩

theorem generate_recommendations_positive {errorCats warnCats : List String}
    (h1 : errorCats.any (fun c => strContains c "RT-Audio Safety") = false)
    (h2 : warnCats.any (fun c => strContains c "Architecture") = false)
    (h3 : warnCats.any (fun c => strContains c "Duplication") = false)
    (h4 : warnCats.any (fun c => strContains c "AI Bias") = false)
    (h5 : warnCats.any (fun c => strContains c "UI") = false)
    (h6 : warnCats.any (fun c => strContains c "Config") = false)
    (h7 : warnCats.any (fun c => strContains c "Instance Isolation") = false) :
    generate_recommendations errorCats warnCats = [recPositive] := by
  unfold generate_recommendations
  simp only [h1, h2, h3, h4, h5, h6, h7, Bool.false_eq_true, if_false,
    List.append_nil, List.nil_append]
  rfl

/-! ## Dead-code block detection (claim C10)

`AIBiasDetectorAgent.check_dead_code` (agent_ai_bias.py 152-195). -/

/-- A commented-out code-like line: stripped text starts with `//` and
the re-stripped remainder contains one of `{ } ( ) ; =`. -/
def deadQualifies (line : List Char) : Bool :=
  listStartsWith (pyStrip line) ('/' :: '/' :: []) &&
    (let uncommented := pyStrip ((pyStrip line).drop 2)
     ['{', '}', '(', ')', ';', '='].any (fun p => uncommented.contains p))

/-- The per-line state machine of `check_dead_code`: `start`/`count`
track the current run of commented code-like lines; a non-qualifying line
flushes a run of ≥ 3; nothing flushes at end of file. -/
def deadCodeGo (file : String) : Nat → Option Nat → Nat → List (List Char) → List Issue
  | _, _, _, [] => []
  | i, start, count, line :: rest =>
    if deadQualifies line then
      deadCodeGo file (i + 1) (if start.isSome then start else some i) (count + 1) rest
    else
      (if 3 ≤ count then
        [⟨"WARNING", "AI Bias - Dead Code", file, start.getD 0,
          "Block of " ++ toString count ++
            " lines of commented-out code. Remove or uncomment."⟩]
       else []) ++ deadCodeGo file (i + 1) none 0 rest

/-- `check_dead_code` for one file's lines. -/
def check_dead_code (file : String) (lines : List (List Char)) : List Issue :=
  deadCodeGo file 1 none 0 lines

theorem deadCodeGo_all_qualifying (file : String) :
    ∀ (run : List (List Char)), (∀ l ∈ run, deadQualifies l = true) →
    ∀ (i : Nat) (start : Option Nat) (count : Nat),
      deadCodeGo file i start count run = [] := by
  intro run
  induction run with
  | nil => intro _ i start count; rfl
  | cons line rest ih =>
    intro h i start count
    have hl : deadQualifies line = true := h line (by simp)
    simp only [deadCodeGo, hl, if_pos]
    exact ih (fun l hl' => h l (by simp [hl'])) _ _ _

/-- Appending qualifying lines at the end of a file never adds issues:
runs are only reported when a later non-qualifying line flushes them. -/
theorem check_dead_code_trailing (file : String) (lines run : List (List Char))
    (h : ∀ l ∈ run, deadQualifies l = true) :
    check_dead_code file (lines ++ run) = check_dead_code file lines := by
  unfold check_dead_code
  suffices hgen : ∀ (xs : List (List Char)) (i : Nat) (start : Option Nat) (count : Nat),
      deadCodeGo file i start count (xs ++ run) = deadCodeGo file i start count xs by
    exact hgen lines 1 none 0
  intro xs
  induction xs with
  | nil =>
    intro i start count
    rw [List.nil_append]
    rw [deadCodeGo_all_qualifying file run h]
    rfl
  | cons line rest ih =>
    intro i start count
    rw [List.cons_append]
    by_cases hq : deadQualifies line = true
    · simp only [deadCodeGo, hq, if_pos]
      exact ih _ _ _
    · simp only [deadCodeGo]
      rw [if_neg hq, if_neg hq, ih _ _ _]

/-! ## The claims -/

set_option maxRecDepth 1000000 in
/-- C1: false as stated.  Left conjunct: the spans `a /*\n// */ b` and
`a b` have the same C token stream (they differ only in a block comment),
yet their digests differ, because the line-comment pass runs first and
destroys the `*/` of a block comment that contains `//`.  Right conjunct:
the spans `char *s = "a//b";` and `char *s = "a//c";` differ in a string
token, yet get the same digest, because the `//` inside the string is
treated as a comment and both strings are truncated at it. -/
theorem C1_hash_counterexample :
    (cTokens "a /*\n// */ b".data = cTokens "a b".data ∧
      get_code_hash "a /*\n// */ b" ≠ get_code_hash "a b") ∧
    (cTokens "char *s = \"a//b\";".data ≠ cTokens "char *s = \"a//c\";".data ∧
      get_code_hash "char *s = \"a//b\";" = get_code_hash "char *s = \"a//c\";") :=
  ⟨⟨by decide, by decide⟩, by decide, by decide⟩

/-- C1 (amended): spans with equal normalized text always receive the
same digest; in particular, spans containing no comment marker (`//` or
`/*`) that are equal after whitespace collapsing and stripping receive
the same digest.  Equal digests guarantee only equal normalized text, not
token identity: normalization is purely textual, so token-differing spans
can collide (a `//` inside a string literal) and token-identical spans
can diverge (a line comment inside a block comment). -/
theorem C1_hash_amended (a b : String) :
    (normalize_code a = normalize_code b → get_code_hash a = get_code_hash b) ∧
    (hasPairBy ddPair a.data = false → hasPairBy opPair a.data = false →
      hasPairBy ddPair b.data = false → hasPairBy opPair b.data = false →
      pyStrip (collapseWs a.data) = pyStrip (collapseWs b.data) →
      get_code_hash a = get_code_hash b) := by
  constructor
  · intro h
    unfold get_code_hash
    rw [h]
  · intro hda hoa hdb hob hsame
    unfold get_code_hash
    have hna : normalize_code a = ⟨pyStrip (collapseWs a.data)⟩ := by
      unfold normalize_code
      rw [rmLine_fix hda,
        rmBlock_fix a.data.length _ le_rfl (hasBlockMatch_of_opFree hoa)]
    have hnb : normalize_code b = ⟨pyStrip (collapseWs b.data)⟩ := by
      unfold normalize_code
      rw [rmLine_fix hdb,
        rmBlock_fix b.data.length _ le_rfl (hasBlockMatch_of_opFree hob)]
    rw [hna, hnb, hsame]

set_option maxRecDepth 1000000 in
theorem C1_hash_amended_witness :
    get_code_hash "a /*x*/ b" = get_code_hash "a  b" ∧
    get_code_hash "int  x ;" = get_code_hash "int x ;" :=
  ⟨(C1_hash_amended "a /*x*/ b" "a  b").1 (by decide),
   (C1_hash_amended "int  x ;" "int x ;").2 (by decide) (by decide) (by decide)
     (by decide) (by decide)⟩

/-- C2: `normalize_code` is idempotent: normalizing an already-normalized
span changes nothing. -/
theorem C2_normalize_idempotent (x : String) :
    normalize_code (normalize_code x) = normalize_code x :=
  normalize_code_idem x

/-- C3: false as stated.  A group whose two members both lie in the
standalone tree (root identifier set of size 1) is nevertheless reported
as cross-boundary when one of its standalone paths contains the substring
`vst/` (here `src/vst/a.cpp`), because the classification tests
`'vst/' in path` / `'src/' in path` on the path text, not the scan
root. -/
theorem C3_cross_boundary_counterexample :
    crossBoundaryEmitted
      ([⟨ScanRoot.standalone, "vst/a.cpp", "f", 3⟩,
        ⟨ScanRoot.standalone, "b.c", "f", 5⟩].map toDupLoc) = true ∧
    ¬ rootsAtLeastTwo
      [⟨ScanRoot.standalone, "vst/a.cpp", "f", 3⟩,
       ⟨ScanRoot.standalone, "b.c", "f", 5⟩] :=
  ⟨by decide, by decide⟩

/-- C3 (amended): an issue is emitted for a digest group iff it has at
least 2 members and both the `'vst/' in path` and the `'src/' in path`
filters are non-empty; provided no standalone relative path contains the
substring `vst/` and no VST file name contains `src/`, this is equivalent
to the group having at least 2 members whose root identifiers form a set
of size ≥ 2 (and in particular a group confined to one root is never
reported). -/
theorem C3_cross_boundary_amended (locs : List ScanLoc)
    (hs : ∀ l ∈ locs, l.root = ScanRoot.standalone →
      containsSub l.rel.data ['v', 's', 't', '/'] = false)
    (hv : ∀ l ∈ locs, l.root = ScanRoot.vst →
      containsSub l.rel.data ['s', 'r', 'c', '/'] = false) :
    crossBoundaryEmitted (locs.map toDupLoc) = true ↔
      1 < locs.length ∧ rootsAtLeastTwo locs := by
  unfold crossBoundaryEmitted
  rw [vst_data, src_data, List.length_map]
  simp only [Bool.and_eq_true, decide_eq_true_eq]
  rw [filter_root_nonempty (scanPath_vst_test hs),
    filter_root_nonempty (scanPath_src_test hv)]
  unfold rootsAtLeastTwo
  tauto

theorem C3_cross_boundary_amended_witness :
    crossBoundaryEmitted
      ([⟨ScanRoot.vst, "a.cpp", "f", 1⟩,
        ⟨ScanRoot.standalone, "core/a.c", "f", 9⟩].map toDupLoc) = true :=
  (C3_cross_boundary_amended _ (by decide) (by decide)).mpr
    ⟨by decide, by decide⟩

/-- The file used to refute C4: braces are balanced, and the function
name `f` appears twice, so the Python dict update keeps the second `f`
span (lines 7-10) at the original insertion position, before `g`
(lines 4-6). -/
def c4Content : String :=
  "int f() \x7b\naaaaaaaaaaaaaaaaaaaaaaaaaaaaaaaaaaaaaaaaaaaaaaaaaaaaaaaaaaaaaaaaaaaaaaaaaaaaaaaaaaaaaaaaaaaaaaaaaaaa;\n\x7d\nint g() \x7b\naaaaaaaaaaaaaaaaaaaaaaaaaaaaaaaaaaaaaaaaaaaaaaaaaaaaaaaaaaaaaaaaaaaaaaaaaaaaaaaaaaaaaaaaaaaaaaaaaaaa;\n\x7d\nint f() \x7b\naaaaaaaaaaaaaaaaaaaaaaaaaaaaaaaaaaaaaaaaaaaaaaaaaaaaaaaaaaaaaaaaaaaaaaaaaaaaaaaaaaaaaaaaaaaaaaaaaaaa;\nx;\n\x7d"

/-- C4: false as stated.  On a balanced-brace file in which a function
name repeats, the returned span sequence is not strictly increasing: the
span recorded last overwrites its name's dict entry in place, so
`extract_functions` returns `f` (lines 7-10) before `g` (lines 4-6). -/
theorem C4_extract_counterexample :
    braceBalanced c4Content.data = true ∧
    (extract_functions c4Content.data).map (fun r => (r.1, r.2.2)) =
      [(['f'], 7), (['g'], 4)] ∧
    ¬ List.Pairwise (fun a b => endLine a < b.2.2) (extract_functions c4Content.data) :=
  ⟨by decide, by decide, by decide⟩

/-- C4 (amended): on every file (balanced braces or not), each returned
span has `1 ≤ start ≤ end` and text strictly above the 100-character
threshold, and the spans are pairwise non-overlapping; the sequence is
moreover strictly increasing by line range provided no function name
repeats among the recorded spans. -/
theorem C4_extract_amended (content : List Char)
    (hbal : braceBalanced content = true) :
    (∀ r ∈ extract_functions content,
        100 < r.2.1.length ∧ 1 ≤ r.2.2 ∧ r.2.2 ≤ endLine r) ∧
    List.Pairwise (fun a b => endLine a < b.2.2 ∨ endLine b < a.2.2)
      (extract_functions content) ∧
    (((extrGo 1 none (splitLines content)).map Prod.fst).Nodup →
      List.Pairwise (fun a b => endLine a < b.2.2) (extract_functions content)) :=
  extract_functions_props content

theorem C4_extract_amended_witness :
    List.Pairwise (fun a b => endLine a < b.2.2 ∨ endLine b < a.2.2)
      (extract_functions c4Content.data) :=
  (C4_extract_amended c4Content.data (by decide)).2.1

/-- C5: the quality score always lies in [0, 100]; the applied deductions
sum to `100 − score`; and the score is monotonically non-increasing as
more threshold-crossing deduction conditions become true. -/
theorem C5_quality_score (a a' : ℚ) (n n' : ℕ) (r r' : ℚ) :
    (0 ≤ qualityScore a n r ∧ qualityScore a n r ≤ 100) ∧
    (qualityDeductions a n r).sum = 100 - qualityScore a n r ∧
    ((10 < a → 10 < a') → (5 < n → 5 < n') → (r < 1 / 10 → r' < 1 / 10) →
      (1 / 2 < r → 1 / 2 < r') → qualityScore a' n' r' ≤ qualityScore a n r) :=
  ⟨qualityScore_range a n r, qualityScore_sum a n r,
   fun h1 h2 h3 h4 => qualityScore_mono h1 h2 h3 h4⟩

theorem C5_quality_score_witness :
    ((0 ≤ qualityScore 11 6 (1 / 20) ∧ qualityScore 11 6 (1 / 20) ≤ 100) ∧
      (qualityDeductions 11 6 (1 / 20)).sum = 100 - qualityScore 11 6 (1 / 20) ∧
      qualityScore 12 7 (1 / 20) ≤ qualityScore 11 6 (1 / 20)) :=
  ⟨(C5_quality_score 11 12 6 7 (1 / 20) (1 / 20)).1,
   (C5_quality_score 11 12 6 7 (1 / 20) (1 / 20)).2.1,
   (C5_quality_score 11 12 6 7 (1 / 20) (1 / 20)).2.2 (by norm_num) (by norm_num)
     (by norm_num) (by norm_num)⟩

def c6IssueA : Issue :=
  ⟨"WARNING", "Architecture - Global State", "vst/source/A.cpp", 10, "a"⟩

def c6IssueY : Issue :=
  ⟨"WARNING", "AI Bias - Dead Code", "vst/source/Y.cpp", 4, "dead code in Y"⟩

def c6IssueC : Issue := ⟨"INFO", "UI - Layout", "vst/source/B.cpp", 7, "c"⟩

def c6Agents : List AgentRun :=
  [⟨"Architecture Review", [c6IssueA], false⟩,
   ⟨"AI Bias Detection", [c6IssueY], true⟩,
   ⟨"UI Consistency", [c6IssueC], false⟩]

/-- C6: false as stated.  The middle agent raised after having produced
an issue for file `Y`; the orchestrator's per-agent `try` skips the whole
collection step for it, so that issue is absent from the consolidated
output even though the other agents' issues survive and the run
continues. -/
theorem C6_failure_counterexample :
    ((c6Agents.map AgentRun.raises = [false, true, false]) ∧
      c6IssueY ∈ (c6Agents.map AgentRun.issues).flatten) ∧
    run_all_agents c6Agents =
      [("Architecture Review", c6IssueA), ("UI Consistency", c6IssueC)] ∧
    c6IssueY ∉ (run_all_agents c6Agents).map Prod.snd :=
  ⟨⟨by decide, by decide⟩, by decide, by decide⟩

/-- C6 (amended): one scanner raising never aborts the run — the issues
of every other scanner, before and after it, appear unchanged in the
consolidated output — but the raising scanner's own issues (including
those for files it had already finished) are dropped, because collection
happens after `run()` inside the same `try`.  A file-read failure inside
`extract_functions` is caught by the duplication scanner itself, per
file, and yields an empty span dict for that file only. -/
theorem C6_failure_amended (pre post : List AgentRun) (a : AgentRun) :
    run_all_agents (pre ++ a :: post) =
      run_all_agents pre ++
        (if a.raises then [] else a.issues.map (fun i => (a.name, i))) ++
          run_all_agents post ∧
    ∀ e : String, extract_functions_file (Except.error e) = [] := by
  constructor
  · rw [run_all_agents_append]
    have hcons : run_all_agents (a :: post) =
        (if a.raises then [] else a.issues.map (fun i => (a.name, i))) ++
          run_all_agents post := by
      unfold run_all_agents
      rw [List.flatMap_cons]
    rw [hcons, List.append_assoc]
  · intro e
    rfl

def c7IssueZ : Issue :=
  ⟨"ERROR", "RT-Audio Safety", "vst/source/PluginProcessor.cpp", 12, "mutex"⟩

def c7IssueA : Issue :=
  ⟨"ERROR", "Architecture - Audio Layer", "vst/source/A.cpp", 3, "rtaudio"⟩

/-- C7: false as stated.  No `(category, file, line)` sort is applied
before rendering: the ERROR section is rendered in collection order, so
merging the same two issues (with distinct sort keys) in the two possible
orders yields different consolidated output. -/
theorem C7_sort_counterexample :
    issueKey c7IssueA ≠ issueKey c7IssueZ ∧
    renderErrorSection [("Architecture Review", c7IssueZ), ("Architecture Review", c7IssueA)] ≠
      renderErrorSection [("Architecture Review", c7IssueA), ("Architecture Review", c7IssueZ)] :=
  ⟨by decide, by decide⟩

/-- C7 (amended): the consolidated issue list is not sorted; issues are
collected and rendered in the orchestrator's fixed sequential agent
order (collection and rendering both commute with concatenation), so the
output is deterministic for a given agent list but does depend on the
merge order. -/
theorem C7_sort_amended (agents1 agents2 : List AgentRun)
    (e1 e2 : List (String × Issue)) :
    run_all_agents (agents1 ++ agents2) =
      run_all_agents agents1 ++ run_all_agents agents2 ∧
    renderErrorSection (e1 ++ e2) =
      renderErrorSection e1 ++ renderErrorSection e2 :=
  ⟨run_all_agents_append agents1 agents2, renderErrorSection_append e1 e2⟩

/-- C8: a hot-path body whose only unsafe line is a blocking lock
acquisition yields exactly one ERROR issue in category `RT-Audio Safety`,
against the processor file at that line of the extracted body; the
recommendation list then surfaces the realtime-safety fix first; and when
no category matches any rule the single positive recommendation is
emitted. -/
theorem C8_rt_safety (content body : List Char) (pre post : List (List Char))
    (L : List Char)
    (hpb : pbSearch content = some body)
    (hsplit : splitLines body = pre ++ L :: post)
    (hbpre : ∀ l ∈ pre, rtBenign l) (hbpost : ∀ l ∈ post, rtBenign l)
    (hc : isCommentLine L = false) (hmu : rtMutex L = true)
    (hma : rtMalloc L = false) (hne : rtNew L = false) (hde : rtDelete L = false)
    (hpr : rtPrintf L = false) (hlo : rtLogger L = false) (hco : rtCout L = false)
    (errorCats warnCats : List String)
    (hrt : errorCats.any (fun c => strContains c "RT-Audio Safety") = true) :
    check_rt_audio_safety content =
      [⟨"ERROR", "RT-Audio Safety", processorFile, pre.length + 1,
        "Mutex lock (RT-unsafe if blocking)" ++ " in processBlock: " ++
          String.mk (pyStrip L)⟩] ∧
    (∃ t, generate_recommendations errorCats warnCats = recRT :: t) ∧
    (∀ ec wc : List String,
      ec.any (fun c => strContains c "RT-Audio Safety") = false →
      wc.any (fun c => strContains c "Architecture") = false →
      wc.any (fun c => strContains c "Duplication") = false →
      wc.any (fun c => strContains c "AI Bias") = false →
      wc.any (fun c => strContains c "UI") = false →
      wc.any (fun c => strContains c "Config") = false →
      wc.any (fun c => strContains c "Instance Isolation") = false →
      generate_recommendations ec wc = [recPositive]) := by
  refine ⟨?_, generate_recommendations_rt_first hrt,
    fun ec wc h1 h2 h3 h4 h5 h6 h7 =>
      generate_recommendations_positive h1 h2 h3 h4 h5 h6 h7⟩
  unfold check_rt_audio_safety
  rw [hpb]
  simp only
  rw [hsplit, rtScanGo_append, rtScanGo_benign hbpre]
  simp only [rtScanGo, List.nil_append]
  rw [rtScanGo_benign hbpost]
  rw [rtScanLine_mutex hc hmu hma hne hde hpr hlo hco]
  rw [List.append_nil, Nat.add_comm 1 pre.length]

def c8Content : String :=
  "void Sp3ctraAudioProcessor::processBlock(juce::AudioBuffer& b)\n\x7b\n  std::mutex m;\n  x = 1;\n\x7d\n"

theorem C8_rt_safety_witness :
    check_rt_audio_safety c8Content.data =
      [⟨"ERROR", "RT-Audio Safety", processorFile, ([[]] : List (List Char)).length + 1,
        "Mutex lock (RT-unsafe if blocking)" ++ " in processBlock: " ++
          String.mk (pyStrip "  std::mutex m;".data)⟩] ∧
    (∃ t, generate_recommendations ["RT-Audio Safety"] [] = recRT :: t) ∧
    (∀ ec wc : List String,
      ec.any (fun c => strContains c "RT-Audio Safety") = false →
      wc.any (fun c => strContains c "Architecture") = false →
      wc.any (fun c => strContains c "Duplication") = false →
      wc.any (fun c => strContains c "AI Bias") = false →
      wc.any (fun c => strContains c "UI") = false →
      wc.any (fun c => strContains c "Config") = false →
      wc.any (fun c => strContains c "Instance Isolation") = false →
      generate_recommendations ec wc = [recPositive]) :=
  C8_rt_safety c8Content.data "\n  std::mutex m;\n  x = 1;".data [[]]
    ["  x = 1;".data] "  std::mutex m;".data (by decide) (by decide) (by decide)
    (by decide) (by decide) (by decide) (by decide) (by decide) (by decide)
    (by decide) (by decide) (by decide) ["RT-Audio Safety"] [] (by decide)

def c9Issue : Issue :=
  ⟨"ERROR", "RT-Audio Safety", "vst/source/PluginProcessor.cpp", 5, "lock"⟩

def c9Agents : List AgentRun := [⟨"Architecture Review", [c9Issue], false⟩]

/-- C9: false as stated.  A run that collects an ERROR-severity issue
still returns exit code 0: `main` ends with `return 0` unconditionally,
so the claimed "nonzero iff some ERROR issue" equivalence fails. -/
theorem C9_exit_code_counterexample :
    0 < ((run_all_agents c9Agents).filter
      (fun p => p.2.severity == "ERROR")).length ∧
    (pyMain c9Agents).2 = 0 :=
  ⟨by decide, rfl⟩

/-- C9 (amended): the CLI entry point's exit code is 0 on every run,
regardless of the collected issues. -/
theorem C9_exit_code_amended (agents : List AgentRun) : (pyMain agents).2 = 0 := rfl

/-- C10: the dead-code-block detector reports a run of ≥ 3 commented-out
code-like lines only when a later non-qualifying line flushes it, so
appending such a run at the end of a file never adds an issue — in
particular a file ending in such a run gets no issue for that trailing
run. -/
theorem C10_trailing_dead_code (file : String) (lines run : List (List Char))
    (h : ∀ l ∈ run, deadQualifies l = true) :
    check_dead_code file (lines ++ run) = check_dead_code file lines :=
  check_dead_code_trailing file lines run h

theorem C10_trailing_dead_code_witness :
    check_dead_code "vst/source/A.cpp"
      ([] ++ ["// x = 1;".data, "// y = 2;".data, "// z = 3;".data]) =
      check_dead_code "vst/source/A.cpp" [] :=
  C10_trailing_dead_code "vst/source/A.cpp" []
    ["// x = 1;".data, "// y = 2;".data, "// z = 3;".data] (by decide)

end Sp3ctra
